import Mathlib

/-!
# CachedText (src/framework/graphics/cachedtext.cpp)

A shallow embedding of `CachedText`: the cached single-colour draw, the highlighted draw with its
per-glyph colour blend, `update`, and the four mutators.

Conventions of the embedding.

* A font pointer is `Option Nat`: `none` is the null pointer, `some f` is the font object `f`;
  pointer equality is equality of these values.
* The font object is external and mutable: its atlas region may change between two calls. It is
  passed to every operation as `atlas : Nat → AtlasRegion`, the region of each font at the time of
  the call.
* The methods of `BitmapFont` and the draw pool are not part of the file under study. The font
  methods are the fields of `FontProvider`; every call to one of them, and every buffer handed to
  the draw pool, is recorded in the list of `Event`s an operation returns, in program order.
* The highlight computation (lines 66-99) has two readings. In the exact reading (`wrapBelow`,
  `wrapAbove`, `glyphDist`, `highlightFactor`, `blendColor`, `highlightColors`) `float`
  arithmetic is taken without rounding, in an ordered field `K` with a floor function (`ℚ`
  runs, `ℝ` is the real reading); it serves the properties stated over exact arithmetic and
  those that rounding cannot affect. In the `float` reading (`floatOfInt` and the definitions
  whose names end in `Binary32`) every conversion and every arithmetic operation is rounded to
  binary32, to nearest with ties to even, as with `FLT_EVAL_METHOD == 0` and no contraction;
  the loops take fuel there, because they need not exit. In both, `std::cos` is the parameter
  `cosf`. Infinities, NaN and the limits of the exponent range are outside the embedding.
* `m_text.length()` is the byte length of the string; `static_cast<int>` of it is taken to be
  value preserving (texts shorter than `2^31` bytes).
-/

namespace CachedText

/-! ## Primitive types -/

/-- Modelled from the spec: `Rect` is declared outside the file under study; a rectangle is four
integer coordinates compared componentwise. -/
structure Rect where
  x1 : Int
  y1 : Int
  x2 : Int
  y2 : Int
deriving DecidableEq, Repr

/-- Modelled from the spec: the value `{}` that the code assigns to `m_textScreenCoords`, the
sentinel for "no valid cache". -/
def Rect.sentinel : Rect := ⟨0, 0, -1, -1⟩

/-- Modelled from the spec: `Size` is declared outside the file under study. -/
structure Size where
  w : Int
  h : Int
deriving DecidableEq, Repr

/-- Modelled from the spec: `Color` is declared outside the file under study; four 8-bit
channels read by `r()`, `g()`, `b()`, `a()` and built by `Color(r, g, b, a)`. -/
structure Color where
  r : Fin 256
  g : Fin 256
  b : Fin 256
  a : Fin 256
deriving DecidableEq, Repr

/-- A glyph placement (opaque to `CachedText`). -/
abbrev Point := Int × Int

/-- The content of a `CoordsBuffer` (opaque to `CachedText`). -/
abbrev CoordsBuffer := List Int

/-- The value of `Fw::AlignmentFlag` (an enumeration of bit flags). -/
abbrev AlignmentFlag := Nat

/-- Modelled from the spec: `Fw::AlignCenter`, the alignment a new `CachedText` starts with. -/
def AlignCenter : AlignmentFlag := 48

/-- An atlas region pointer; `none` is the null pointer. -/
abbrev AtlasRegion := Option Nat

/-- A texture handle. -/
abbrev Texture := Nat

/-- The methods of `BitmapFont` that `CachedText` calls, as functions of the font object, of
its atlas region at the time of the call (for the methods that read the atlas), and of the
arguments. -/
structure FontProvider where
  calculateGlyphsPositions : Nat → String → AlignmentFlag → List Point × Size
  fillTextCoords :
    Nat → AtlasRegion → String → Size → AlignmentFlag → Rect → List Point → CoordsBuffer
  fillTextColorCoords :
    Nat → AtlasRegion → String → List (Nat × Color) → Size → AlignmentFlag → Rect →
      List Point → List (Color × CoordsBuffer)
  wrapText : Nat → String → Int → String
  getTexture : Nat → AtlasRegion → Texture

/-- One observable call made by an operation: a method of the font, or a submission to the
draw pool (`addTexturedCoordsBuffer`). -/
inductive Event where
  | getAtlasRegion (font : Nat)
  | getTexture (font : Nat)
  | calculateGlyphsPositions (font : Nat) (text : String) (align : AlignmentFlag)
      (withSize : Bool)
  | fillTextCoords (font : Nat) (text : String) (size : Size) (align : AlignmentFlag)
      (rect : Rect) (glyphs : List Point)
  | fillTextColorCoords (font : Nat) (text : String) (colors : List (Nat × Color)) (size : Size)
      (align : AlignmentFlag) (rect : Rect) (glyphs : List Point)
  | wrapText (font : Nat) (text : String) (maxWidth : Int)
  | addTexturedCoordsBuffer (texture : Texture) (coords : CoordsBuffer) (color : Color)
deriving DecidableEq, Repr

/-- Is the event a call of `fillTextCoords` (the single-colour vertex-buffer fill)? -/
def Event.isFill : Event → Bool
  | .fillTextCoords .. => true
  | _ => false

/-- Is the event a call of `calculateGlyphsPositions` (the layout computation)? -/
def Event.isLayout : Event → Bool
  | .calculateGlyphsPositions .. => true
  | _ => false

/-- Is the event a submission to the draw pool? -/
def Event.isSubmit : Event → Bool
  | .addTexturedCoordsBuffer .. => true
  | _ => false

/-- Number of vertex-buffer fills in a trace. -/
def fillCount (es : List Event) : Nat := es.countP Event.isFill

/-- Number of layout computations in a trace. -/
def layoutCount (es : List Event) : Nat := es.countP Event.isLayout

/-! ## The object -/

/-- The fields of `CachedText`. -/
structure State where
  font : Option Nat
  text : String
  align : AlignmentFlag
  atlasRegion : AtlasRegion
  textScreenCoords : Rect
  glyphsPositions : List Point
  textSize : Size
  coordsBuffer : CoordsBuffer
deriving DecidableEq, Repr

/-- The constructor `CachedText::CachedText()`: centre alignment, a new empty buffer, and every
other member value-initialised. -/
def new : State :=
  { font := none
    text := ""
    align := AlignCenter
    atlasRegion := none
    textScreenCoords := Rect.sentinel
    glyphsPositions := []
    textSize := ⟨0, 0⟩
    coordsBuffer := [] }

/-! ## Single-colour draw -/

/-- The atlas check of `draw` (lines 37-40): on a changed region, store it and reset the
cached rectangle. -/
def drawAtlasCheck (atlas : Nat → AtlasRegion) (f : Nat) (s : State) : State × List Event :=
  if atlas f ≠ s.atlasRegion then
    ({ s with atlasRegion := atlas f, textScreenCoords := Rect.sentinel },
      [Event.getAtlasRegion f, Event.getAtlasRegion f])
  else
    (s, [Event.getAtlasRegion f])

/-- The refill of `draw` (lines 42-45): on a rectangle different from the cached one, store
it and fill the buffer. -/
def drawRefill (P : FontProvider) (atlas : Nat → AtlasRegion) (f : Nat) (s : State)
    (rect : Rect) : State × List Event :=
  if s.textScreenCoords ≠ rect then
    ({ s with
        textScreenCoords := rect
        coordsBuffer :=
          P.fillTextCoords f (atlas f) s.text s.textSize s.align rect s.glyphsPositions },
      [Event.fillTextCoords f s.text s.textSize s.align rect s.glyphsPositions])
  else
    (s, [])

/-- `CachedText::draw(rect, color)`. -/
def draw (P : FontProvider) (atlas : Nat → AtlasRegion) (s : State) (rect : Rect)
    (color : Color) : State × List Event :=
  match s.font with
  | none => (s, [])
  | some f =>
    let a := drawAtlasCheck atlas f s
    let b := drawRefill P atlas f a.1 rect
    (b.1, a.2 ++ b.2 ++
      [Event.getTexture f,
       Event.addTexturedCoordsBuffer (P.getTexture f (atlas f)) b.1.coordsBuffer color])

/-! ## Update and mutators -/

/-- `CachedText::update()`. -/
def update (P : FontProvider) (s : State) : State × List Event :=
  match s.font with
  | some f =>
    let r := P.calculateGlyphsPositions f s.text s.align
    ({ s with glyphsPositions := r.1, textSize := r.2, textScreenCoords := Rect.sentinel },
      [Event.calculateGlyphsPositions f s.text s.align true])
  | none => ({ s with textScreenCoords := Rect.sentinel }, [])

/-- `CachedText::wrapText(maxWidth)`. -/
def wrapText (P : FontProvider) (s : State) (maxWidth : Int) : State × List Event :=
  match s.font with
  | none => (s, [])
  | some f =>
    let u := update P { s with text := P.wrapText f s.text maxWidth }
    (u.1, Event.wrapText f s.text maxWidth :: u.2)

/-- `CachedText::setFont(font)`. -/
def setFont (P : FontProvider) (s : State) (font : Option Nat) : State × List Event :=
  if s.font = font then (s, []) else update P { s with font := font }

/-- `CachedText::setText(text)`. -/
def setText (P : FontProvider) (s : State) (text : String) : State × List Event :=
  if s.text = text then (s, []) else update P { s with text := text }

/-- `CachedText::setAlign(align)`. -/
def setAlign (P : FontProvider) (s : State) (align : AlignmentFlag) : State × List Event :=
  if s.align = align then (s, []) else update P { s with align := align }

/-! ## Highlighted draw -/

section Highlight

variable {K : Type} [LinearOrderedField K]

/-- The loop `while (highlightPos < 0) highlightPos += textLen;` (line 70), entered with
`textLen > 0`. -/
def wrapBelow [FloorRing K] (textLen : Nat) (hlen : 0 < textLen) (highlightPos : K) : K :=
  if highlightPos < 0 then wrapBelow textLen hlen (highlightPos + (textLen : K))
  else highlightPos
termination_by (⌈-highlightPos / (textLen : K)⌉).toNat
decreasing_by
  have hn : (0 : K) < (textLen : K) := by exact_mod_cast hlen
  have hpos : 0 < -highlightPos / (textLen : K) := div_pos (by linarith) hn
  have h1 : (0 : ℤ) < ⌈-highlightPos / (textLen : K)⌉ := Int.ceil_pos.mpr hpos
  have h2 : -(highlightPos + (textLen : K)) / (textLen : K)
      = -highlightPos / (textLen : K) - 1 := by
    field_simp
    ring
  rw [h2, Int.ceil_sub_one]
  omega

/-- The loop `while (highlightPos >= textLen) highlightPos -= textLen;` (line 71), entered
with `textLen > 0`. -/
def wrapAbove [FloorRing K] (textLen : Nat) (hlen : 0 < textLen) (highlightPos : K) : K :=
  if (textLen : K) ≤ highlightPos then wrapAbove textLen hlen (highlightPos - (textLen : K))
  else highlightPos
termination_by (⌊highlightPos / (textLen : K)⌋).toNat
decreasing_by
  have hn : (0 : K) < (textLen : K) := by exact_mod_cast hlen
  have hge : (1 : K) ≤ highlightPos / (textLen : K) := by
    rw [le_div_iff₀ hn]
    linarith
  have h1 : (1 : ℤ) ≤ ⌊highlightPos / (textLen : K)⌋ := Int.le_floor.mpr (by exact_mod_cast hge)
  have h2 : (highlightPos - (textLen : K)) / (textLen : K)
      = highlightPos / (textLen : K) - 1 := by
    field_simp
  rw [h2, Int.floor_sub_one]
  omega

/-- Lines 70-71: the highlight position after both loops. -/
def wrapHighlightPos [FloorRing K] (textLen : Nat) (hlen : 0 < textLen) (highlightPos : K) :
    K :=
  wrapAbove textLen hlen (wrapBelow textLen hlen highlightPos)

/-- Lines 79-82: the distance of glyph `i` from the highlight centre, `dist` after the `min`. -/
def glyphDist (textLen : Nat) (highlightPos : K) (i : Nat) : K :=
  let dist := |(i : K) - highlightPos|
  let wrapDist := (textLen : K) - dist
  min dist wrapDist

/-- Lines 86-90: the interpolation factor `t`, together with the divisors of the divisions
by `highlightWidth` that were evaluated on the way (none when the branch is not taken). -/
def highlightFactor (cosf : K → K) (dist highlightWidth : K) : K × List K :=
  if dist < highlightWidth then
    ((cosf (dist / highlightWidth * (314159 / 100000)) + 1) / 2, [highlightWidth])
  else
    (0, [])

/-- Conversion of a `float` to an integer: the fractional part is discarded. -/
def truncToInt [FloorRing K] (x : K) : Int := if 0 ≤ x then ⌊x⌋ else ⌈x⌉

/-- The cast `static_cast<uint8_t>(x)`: truncation, then reduction to 8 bits. -/
def toUInt8 [FloorRing K] (x : K) : Fin 256 := Fin.ofNat (truncToInt x % 256).toNat

/-- Lines 93-96, one channel before the cast: `base + (highlight - base) * t`, the
difference taken in `int`. -/
def blendChannel (base highlight : Fin 256) (t : K) : K :=
  ((base.val : Int) : K) + (((highlight.val : Int) - (base.val : Int) : Int) : K) * t

/-- Lines 93-98: the colour `Color(r, g, b, a)` of a glyph with factor `t`. -/
def blendColor [FloorRing K] (baseColor highlightColor : Color) (t : K) : Color :=
  { r := toUInt8 (blendChannel baseColor.r highlightColor.r t)
    g := toUInt8 (blendChannel baseColor.g highlightColor.g t)
    b := toUInt8 (blendChannel baseColor.b highlightColor.b t)
    a := toUInt8 (blendChannel baseColor.a highlightColor.a t) }

/-- The body of the loop of lines 77-99 for glyph `i`, `highlightPos` being the wrapped
position: the pair pushed to `textColors`. -/
def glyphColor [FloorRing K] (cosf : K → K) (textLen : Nat)
    (highlightPos highlightWidth : K) (baseColor highlightColor : Color) (i : Nat) :
    Nat × Color :=
  (i, blendColor baseColor highlightColor
        (highlightFactor cosf (glyphDist textLen highlightPos i) highlightWidth).1)

/-- Lines 70-99: `textColors` as handed to `fillTextColorCoords`. -/
def highlightColors [FloorRing K] (cosf : K → K) (textLen : Nat) (hlen : 0 < textLen)
    (highlightPos highlightWidth : K) (baseColor highlightColor : Color) : List (Nat × Color) :=
  (List.range textLen).map
    (glyphColor cosf textLen (wrapHighlightPos textLen hlen highlightPos) highlightWidth
      baseColor highlightColor)

/-- Lines 77-99: the divisors of all divisions by `highlightWidth` evaluated in the loop, in
order. -/
def highlightDivisors [FloorRing K] (cosf : K → K) (textLen : Nat) (hlen : 0 < textLen)
    (highlightPos highlightWidth : K) : List K :=
  (List.range textLen).flatMap fun i =>
    (highlightFactor cosf
      (glyphDist textLen (wrapHighlightPos textLen hlen highlightPos) i) highlightWidth).2

/-- The atlas check of `drawWithHighlight` (lines 56-58): on a changed region, store it. -/
def highlightAtlasCheck (atlas : Nat → AtlasRegion) (f : Nat) (s : State) :
    State × List Event :=
  if atlas f ≠ s.atlasRegion then
    ({ s with atlasRegion := atlas f }, [Event.getAtlasRegion f, Event.getAtlasRegion f])
  else
    (s, [Event.getAtlasRegion f])

/-- The layout step of `drawWithHighlight` (lines 61-64): on a rectangle different from the
cached one, store it and recompute the glyph positions (no size requested). -/
def highlightLayout (P : FontProvider) (f : Nat) (s : State) (rect : Rect) :
    State × List Event :=
  if s.textScreenCoords ≠ rect then
    ({ s with
        textScreenCoords := rect
        glyphsPositions := (P.calculateGlyphsPositions f s.text s.align).1 },
      [Event.calculateGlyphsPositions f s.text s.align false])
  else
    (s, [])

/-- `CachedText::drawWithHighlight(rect, baseColor, highlightColor, highlightPos,
highlightWidth)`. -/
def drawWithHighlight [FloorRing K] (cosf : K → K) (P : FontProvider)
    (atlas : Nat → AtlasRegion) (s : State) (rect : Rect) (baseColor highlightColor : Color)
    (highlightPos highlightWidth : K) :
    State × List Event :=
  match s.font with
  | none => (s, [])
  | some f =>
    if s.text.utf8ByteSize = 0 then (s, [])
    else
      let a := highlightAtlasCheck atlas f s
      let b := highlightLayout P f a.1 rect
      if hlen : b.1.text.utf8ByteSize = 0 then (b.1, a.2 ++ b.2)
      else
        let textColors := highlightColors cosf b.1.text.utf8ByteSize (Nat.pos_of_ne_zero hlen)
          highlightPos highlightWidth baseColor highlightColor
        let colorCoords := P.fillTextColorCoords f (atlas f) b.1.text textColors b.1.textSize
          b.1.align rect b.1.glyphsPositions
        (b.1, a.2 ++ b.2 ++
          [Event.fillTextColorCoords f b.1.text textColors b.1.textSize b.1.align rect
            b.1.glyphsPositions] ++
          colorCoords.flatMap fun kv =>
            [Event.getTexture f,
             Event.addTexturedCoordsBuffer (P.getTexture f (atlas f)) kv.2 kv.1])

/-! ## Call sequences -/

/-- One public call on a `CachedText`, with its arguments. -/
inductive Call (K : Type) where
  | setText (text : String)
  | setFont (font : Option Nat)
  | setAlign (align : AlignmentFlag)
  | wrapText (maxWidth : Int)
  | draw (rect : Rect) (color : Color)
  | drawWithHighlight (rect : Rect) (baseColor highlightColor : Color)
      (highlightPos highlightWidth : K)

/-- The rectangle a call draws into, if it is a draw call. -/
def Call.rect? : Call K → Option Rect
  | .draw rect _ => some rect
  | .drawWithHighlight rect _ _ _ _ => some rect
  | _ => none

/-- Is the call a `drawWithHighlight`? -/
def Call.isHighlight : Call K → Bool
  | .drawWithHighlight .. => true
  | _ => false

/-- Execution of one call, the fonts having the atlas regions `atlas` at that time. -/
def step [FloorRing K] (cosf : K → K) (P : FontProvider) (atlas : Nat → AtlasRegion)
    (s : State) : Call K → State × List Event
  | .setText text => setText P s text
  | .setFont font => setFont P s font
  | .setAlign align => setAlign P s align
  | .wrapText maxWidth => wrapText P s maxWidth
  | .draw rect color => draw P atlas s rect color
  | .drawWithHighlight rect baseColor highlightColor highlightPos highlightWidth =>
    drawWithHighlight cosf P atlas s rect baseColor highlightColor highlightPos highlightWidth

/-- Execution of a sequence of calls from state `s`; each call comes with the atlas regions
of the fonts at the time it is made, so the regions may change between any two calls. The
result is the final state and the whole trace. -/
def run [FloorRing K] (cosf : K → K) (P : FontProvider) (s : State) :
    List ((Nat → AtlasRegion) × Call K) → State × List Event
  | [] => (s, [])
  | (atlas, c) :: rest =>
    let r := step cosf P atlas s c
    let t := run cosf P r.1 rest
    (t.1, r.2 ++ t.2)

end Highlight

/-! ## Concrete instances used to evaluate the model -/

/-- A font provider whose results encode the arguments they were computed from. -/
def probeProvider : FontProvider :=
  { calculateGlyphsPositions := fun f t a =>
      ((List.range t.utf8ByteSize).map fun i => ((i : Int), (f : Int)), ⟨t.utf8ByteSize, a⟩)
    fillTextCoords := fun f region t size _ rect _ =>
      [(f : Int), ((region.getD 0 : Nat) : Int), (t.utf8ByteSize : Int), size.w,
        rect.x1, rect.y1, rect.x2, rect.y2]
    fillTextColorCoords := fun _ _ _ colors _ _ _ _ => colors.map fun c => (c.2, [(c.1 : Int)])
    wrapText := fun _ t w => if w < (t.utf8ByteSize : Int) then t ++ "\n" else t
    getTexture := fun f _ => f }

/-- A polynomial stand-in for `std::cos` over `ℚ`, exact at `0`. -/
def cosApprox (x : ℚ) : ℚ := 1 - x ^ 2 / 2 + x ^ 4 / 24

/-- The colour `(0, 0, 0, 255)`. -/
def black : Color := ⟨0, 0, 0, 255⟩

/-- The colour `(255, 255, 255, 255)`. -/
def white : Color := ⟨255, 255, 255, 255⟩

/-- The rectangle with corners `(0, 0)` and `(10, 10)`. -/
def rectA : Rect := ⟨0, 0, 10, 10⟩

/-- The rectangle with corners `(5, 5)` and `(20, 20)`. -/
def rectB : Rect := ⟨5, 5, 20, 20⟩

/-- Every font in atlas region `7`. -/
def atlasA : Nat → AtlasRegion := fun _ => some 7

/-- Every font in atlas region `8`. -/
def atlasB : Nat → AtlasRegion := fun _ => some 8

/-- A `CachedText` with font `1` and text `"A"`, right after the two mutators. -/
def readyState : State := (setText probeProvider (setFont probeProvider new (some 1)).1 "A").1

/-- A call sequence over `ℚ` mixing mutators, both draws and an atlas change. -/
def sampleCalls : List ((Nat → AtlasRegion) × Call ℚ) :=
  [(atlasA, Call.setFont (some 1)), (atlasA, Call.setText "AB"), (atlasA, Call.draw rectA black),
   (atlasB, Call.drawWithHighlight rectB black white 0 1), (atlasB, Call.setAlign 1)]

/-- The calls `setFont(1)`, `setText("A")`, `drawWithHighlight(rectA, ...)` on a new object,
after which `draw(rectA, ...)` is evaluated. -/
def highlightThenDraw : List ((Nat → AtlasRegion) × Call ℚ) :=
  [(atlasA, Call.setFont (some 1)), (atlasA, Call.setText "A"),
   (atlasA, Call.drawWithHighlight rectA black white 0 1)]

/-- The calls `setFont(1)`, `setText("A")`, `draw(rectA, ...)` with the font in region `7`,
then `drawWithHighlight(rectA, ...)` after the font moved to region `8`; `draw(rectA, ...)` is
evaluated after them. -/
def repackThenDraw : List ((Nat → AtlasRegion) × Call ℚ) :=
  [(atlasA, Call.setFont (some 1)), (atlasA, Call.setText "A"),
   (atlasA, Call.draw rectA black),
   (atlasB, Call.drawWithHighlight rectA black white 0 1)]

/-! ## The highlight computation under binary32 rounding -/

/-- Rounding of a rational to the nearest integer, ties to the even one. -/
def roundHalfEven (q : ℚ) : Int :=
  if q - (⌊q⌋ : ℚ) < 1 / 2 then ⌊q⌋
  else if 1 / 2 < q - (⌊q⌋ : ℚ) then ⌊q⌋ + 1
  else if ⌊q⌋ % 2 = 0 then ⌊q⌋ else ⌊q⌋ + 1

/-- The binary32 (`float`) value nearest to the rational `x`, ties to even: the significand
has 24 bits, so the spacing of the values around `x` is `2 ^ (e - 23)` where
`2 ^ e ≤ |x| < 2 ^ (e + 1)`. The limits of the exponent range (subnormal values, overflow to
infinity) are not modelled. -/
def roundBinary32 (x : ℚ) : ℚ :=
  if x = 0 then 0
  else
    let ulp : ℚ := (2 : ℚ) ^ (Int.log 2 |x| - 23)
    (roundHalfEven (x / ulp) : ℚ) * ulp

/-- The conversion of an `int` to `float` (`static_cast<float>(i)`, and the implicit
conversion of `textLen` where it meets a `float`). -/
def floatOfInt (z : Int) : ℚ := roundBinary32 (z : ℚ)

/-- The loop `while (highlightPos < 0) highlightPos += textLen;` (line 70) with the result of
each addition rounded to `float`, run for at most `fuel` tests of the condition: `some p` when
the loop exits with `highlightPos = p`, `none` when the fuel runs out first. -/
def wrapBelowBinary32 : Nat → Nat → ℚ → Option ℚ
  | 0, _, _ => none
  | fuel + 1, textLen, highlightPos =>
    if highlightPos < 0 then
      wrapBelowBinary32 fuel textLen (roundBinary32 (highlightPos + floatOfInt textLen))
    else some highlightPos

/-- The loop `while (highlightPos >= textLen) highlightPos -= textLen;` (line 71) with the
result of each subtraction rounded to `float`, run for at most `fuel` tests of the condition:
`some p` when the loop exits with `highlightPos = p`, `none` when the fuel runs out first. -/
def wrapAboveBinary32 : Nat → Nat → ℚ → Option ℚ
  | 0, _, _ => none
  | fuel + 1, textLen, highlightPos =>
    if floatOfInt textLen ≤ highlightPos then
      wrapAboveBinary32 fuel textLen (roundBinary32 (highlightPos - floatOfInt textLen))
    else some highlightPos

/-- Lines 70-71 in `float`: the position after both loops, each run with `fuel`. -/
def wrapHighlightPosBinary32 (fuel textLen : Nat) (highlightPos : ℚ) : Option ℚ :=
  (wrapBelowBinary32 fuel textLen highlightPos).bind (wrapAboveBinary32 fuel textLen)

/-- Lines 79-82 in `float`: `dist` after the `min`, the subtractions rounded. -/
def glyphDistBinary32 (textLen : Nat) (highlightPos : ℚ) (i : Nat) : ℚ :=
  let dist := |roundBinary32 (floatOfInt i - highlightPos)|
  let wrapDist := roundBinary32 (floatOfInt textLen - dist)
  min dist wrapDist

/-- Lines 86-90 in `float`: the factor `t`; the quotient, the product with `3.14159f`, the
sum and the halving are each rounded, and `cosf` is the `float` cosine. -/
def highlightFactorBinary32 (cosf : ℚ → ℚ) (dist highlightWidth : ℚ) : ℚ :=
  if dist < highlightWidth then
    roundBinary32
      (roundBinary32
        (cosf (roundBinary32
          (roundBinary32 (dist / highlightWidth) * roundBinary32 (314159 / 100000))) + 1) / 2)
  else 0

/-- Lines 93-96 in `float`, one channel before the cast: the channels and their `int`
difference are converted to `float`, the product and the sum are rounded. -/
def blendChannelBinary32 (base highlight : Fin 256) (t : ℚ) : ℚ :=
  roundBinary32
    (floatOfInt (base.val : Int) +
      roundBinary32 (floatOfInt ((highlight.val : Int) - (base.val : Int)) * t))

/-- Lines 93-98 in `float`: the colour `Color(r, g, b, a)` of a glyph with factor `t`. -/
def blendColorBinary32 (baseColor highlightColor : Color) (t : ℚ) : Color :=
  { r := toUInt8 (blendChannelBinary32 baseColor.r highlightColor.r t)
    g := toUInt8 (blendChannelBinary32 baseColor.g highlightColor.g t)
    b := toUInt8 (blendChannelBinary32 baseColor.b highlightColor.b t)
    a := toUInt8 (blendChannelBinary32 baseColor.a highlightColor.a t) }

/-- The body of the loop of lines 77-99 in `float` for glyph `i`, `highlightPos` being the
wrapped position: the pair pushed to `textColors`. -/
def glyphColorBinary32 (cosf : ℚ → ℚ) (textLen : Nat) (highlightPos highlightWidth : ℚ)
    (baseColor highlightColor : Color) (i : Nat) : Nat × Color :=
  (i, blendColorBinary32 baseColor highlightColor
        (highlightFactorBinary32 cosf (glyphDistBinary32 textLen highlightPos i)
          highlightWidth))

/-- Lines 70-99 in `float`: `textColors` as handed to `fillTextColorCoords`, or `none` when a
normalisation loop has not exited within `fuel` tests of its condition. -/
def highlightColorsBinary32 (cosf : ℚ → ℚ) (fuel textLen : Nat)
    (highlightPos highlightWidth : ℚ) (baseColor highlightColor : Color) :
    Option (List (Nat × Color)) :=
  (wrapHighlightPosBinary32 fuel textLen highlightPos).map fun p =>
    (List.range textLen).map
      (glyphColorBinary32 cosf textLen p highlightWidth baseColor highlightColor)

/-- `CachedText::drawWithHighlight` with lines 70-99 in `float`: the state and trace of the
call, or `none` when a normalisation loop has not exited within `fuel` tests of its
condition (the call has then not reached `fillTextColorCoords`). -/
def drawWithHighlightBinary32 (cosf : ℚ → ℚ) (fuel : Nat) (P : FontProvider)
    (atlas : Nat → AtlasRegion) (s : State) (rect : Rect) (baseColor highlightColor : Color)
    (highlightPos highlightWidth : ℚ) : Option (State × List Event) :=
  match s.font with
  | none => some (s, [])
  | some f =>
    if s.text.utf8ByteSize = 0 then some (s, [])
    else
      let a := highlightAtlasCheck atlas f s
      let b := highlightLayout P f a.1 rect
      if b.1.text.utf8ByteSize = 0 then some (b.1, a.2 ++ b.2)
      else
        (highlightColorsBinary32 cosf fuel b.1.text.utf8ByteSize highlightPos highlightWidth
          baseColor highlightColor).map fun textColors =>
            (b.1, a.2 ++ b.2 ++
              [Event.fillTextColorCoords f b.1.text textColors b.1.textSize b.1.align rect
                b.1.glyphsPositions] ++
              (P.fillTextColorCoords f (atlas f) b.1.text textColors b.1.textSize b.1.align
                rect b.1.glyphsPositions).flatMap fun kv =>
                  [Event.getTexture f,
                   Event.addTexturedCoordsBuffer (P.getTexture f (atlas f)) kv.2 kv.1])

/-! ## Theorems: caching and mutators -/

theorem fillCount_drawAtlasCheck (atlas : Nat → AtlasRegion) (f : Nat) (s : State) :
    fillCount (drawAtlasCheck atlas f s).2 = 0 := by
  unfold drawAtlasCheck
  split <;> simp [fillCount, Event.isFill]

theorem drawAtlasCheck_of_sentinel (atlas : Nat → AtlasRegion) (f : Nat) (s : State)
    (h : s.textScreenCoords = Rect.sentinel) :
    (drawAtlasCheck atlas f s).1.textScreenCoords = Rect.sentinel ∧
      (drawAtlasCheck atlas f s).1.atlasRegion = atlas f ∧
      (drawAtlasCheck atlas f s).1.font = s.font := by
  unfold drawAtlasCheck
  split
  · simp
  · rename_i hne
    simp only [ne_eq, not_not] at hne
    simp [h, hne]

theorem drawAtlasCheck_of_eq (atlas : Nat → AtlasRegion) (f : Nat) (s : State)
    (h : atlas f = s.atlasRegion) :
    (drawAtlasCheck atlas f s).1 = s := by
  simp [drawAtlasCheck, h]

theorem draw_fill_of_ne (P : FontProvider) (atlas : Nat → AtlasRegion) (s : State) (f : Nat)
    (rect : Rect) (color : Color) (hf : s.font = some f)
    (hne : (drawAtlasCheck atlas f s).1.textScreenCoords ≠ rect) :
    fillCount (draw P atlas s rect color).2 = 1 ∧
      (draw P atlas s rect color).1.textScreenCoords = rect ∧
      (draw P atlas s rect color).1.atlasRegion = (drawAtlasCheck atlas f s).1.atlasRegion ∧
      (draw P atlas s rect color).1.font = (drawAtlasCheck atlas f s).1.font := by
  have h0 := fillCount_drawAtlasCheck atlas f s
  simp only [fillCount] at h0
  simp [draw, hf, drawRefill, hne, fillCount, List.countP_append, h0, Event.isFill]

theorem draw_fill_of_eq (P : FontProvider) (atlas : Nat → AtlasRegion) (s : State) (f : Nat)
    (rect : Rect) (color : Color) (hf : s.font = some f)
    (heq : (drawAtlasCheck atlas f s).1.textScreenCoords = rect) :
    fillCount (draw P atlas s rect color).2 = 0 ∧
      (draw P atlas s rect color).1 = (drawAtlasCheck atlas f s).1 := by
  have h0 := fillCount_drawAtlasCheck atlas f s
  simp only [fillCount] at h0
  simp [draw, hf, drawRefill, heq, fillCount, List.countP_append, h0, Event.isFill]

theorem fillCount_append (xs ys : List Event) :
    fillCount (xs ++ ys) = fillCount xs + fillCount ys := by
  simp [fillCount, List.countP_append]

/-- C1 (as stated, refuted): drawing twice into the sentinel rectangle right after an
invalidation fills the vertex buffer zero times, not once. -/
theorem draw_sentinel_rect_no_fill :
    readyState.font = some 1 ∧ readyState.textScreenCoords = Rect.sentinel ∧
      fillCount ((draw probeProvider atlasA readyState Rect.sentinel black).2 ++
        (draw probeProvider atlasA
          (draw probeProvider atlasA readyState Rect.sentinel black).1 Rect.sentinel white).2)
        = 0 := by
  decide

/-- C1 (amended): from a state with a font and the sentinel as cached rectangle, with the
font's atlas region the same at the three calls, for every rectangle `r` other than the
sentinel, `draw(r, c1)` then `draw(r, c2)` fill the vertex buffer exactly once in total, and a
third `draw(r', c3)` with `r' ≠ r` fills it exactly once more (two fills overall). -/
theorem draw_rect_change_cache (P : FontProvider) (a1 a2 a3 : Nat → AtlasRegion) (s : State)
    (f : Nat) (r r' : Rect) (c1 c2 c3 : Color)
    (hf : s.font = some f) (hs : s.textScreenCoords = Rect.sentinel)
    (h12 : a2 f = a1 f) (h23 : a3 f = a1 f) (hr : r ≠ Rect.sentinel) (hr' : r' ≠ r) :
    fillCount ((draw P a1 s r c1).2 ++ (draw P a2 (draw P a1 s r c1).1 r c2).2) = 1 ∧
    fillCount (draw P a3 (draw P a2 (draw P a1 s r c1).1 r c2).1 r' c3).2 = 1 ∧
    fillCount ((draw P a1 s r c1).2 ++ (draw P a2 (draw P a1 s r c1).1 r c2).2 ++
      (draw P a3 (draw P a2 (draw P a1 s r c1).1 r c2).1 r' c3).2) = 2 := by
  obtain ⟨k1, k2, k3⟩ := drawAtlasCheck_of_sentinel a1 f s hs
  have d1 := draw_fill_of_ne P a1 s f r c1 hf (by rw [k1]; exact fun h => hr h.symm)
  obtain ⟨d1a, d1b, d1c, d1d⟩ := d1
  rw [k2] at d1c
  rw [k3, hf] at d1d
  have e2 : (drawAtlasCheck a2 f (draw P a1 s r c1).1).1 = (draw P a1 s r c1).1 :=
    drawAtlasCheck_of_eq a2 f _ (by rw [d1c, h12])
  have d2 := draw_fill_of_eq P a2 (draw P a1 s r c1).1 f r c2 d1d (by rw [e2, d1b])
  obtain ⟨d2a, d2b⟩ := d2
  rw [e2] at d2b
  have e3 : (drawAtlasCheck a3 f (draw P a1 s r c1).1).1 = (draw P a1 s r c1).1 :=
    drawAtlasCheck_of_eq a3 f _ (by rw [d1c, h23])
  have d3 := draw_fill_of_ne P a3 (draw P a2 (draw P a1 s r c1).1 r c2).1 f r' c3
    (by rw [d2b]; exact d1d) (by rw [d2b, e3, d1b]; exact fun h => hr' h.symm)
  have d3a := d3.1
  refine ⟨?_, d3a, ?_⟩
  · rw [fillCount_append, d1a, d2a]
  · rw [fillCount_append, fillCount_append, d1a, d2a, d3a]

/-- Witness of `draw_rect_change_cache`: font `1`, text `"A"`, rectangles `rectA`, `rectB`. -/
theorem draw_rect_change_cache_witness :
    readyState.font = some 1 ∧ readyState.textScreenCoords = Rect.sentinel ∧
    rectA ≠ Rect.sentinel ∧ rectB ≠ rectA ∧
    fillCount ((draw probeProvider atlasA readyState rectA black).2 ++
      (draw probeProvider atlasA (draw probeProvider atlasA readyState rectA black).1
        rectA white).2) = 1 ∧
    fillCount (draw probeProvider atlasA
      (draw probeProvider atlasA (draw probeProvider atlasA readyState rectA black).1
        rectA white).1 rectB black).2 = 1 ∧
    fillCount ((draw probeProvider atlasA readyState rectA black).2 ++
      (draw probeProvider atlasA (draw probeProvider atlasA readyState rectA black).1
        rectA white).2 ++
      (draw probeProvider atlasA
        (draw probeProvider atlasA (draw probeProvider atlasA readyState rectA black).1
          rectA white).1 rectB black).2) = 2 :=
  ⟨by decide, by decide, by decide, by decide,
    draw_rect_change_cache probeProvider atlasA atlasA atlasA readyState 1 rectA rectB
      black white black (by decide) (by decide) rfl rfl (by decide) (by decide)⟩

theorem update_textScreenCoords (P : FontProvider) (s : State) :
    (update P s).1.textScreenCoords = Rect.sentinel := by
  unfold update
  split <;> rfl

theorem layoutCount_update (P : FontProvider) (s : State) :
    layoutCount (update P s).2 = if s.font.isSome then 1 else 0 := by
  unfold update
  split <;> simp_all [layoutCount, Event.isLayout]

/-- C3 (as stated, refuted): on a new `CachedText` (no font) `setText("A")` changes the text
and leaves the sentinel, but computes no layout at all. -/
theorem setText_without_font_no_layout :
    "A" ≠ new.text ∧ (setText probeProvider new "A").1.text = "A" ∧
      (setText probeProvider new "A").1.textScreenCoords = Rect.sentinel ∧
      layoutCount (setText probeProvider new "A").2 = 0 := by
  decide

/-- C3 (amended): after `setText`, `setFont` or `setAlign` with a value different from the
current one, and after a `wrapText` that changes the text, the cached rectangle is the sentinel;
the layout computation was invoked exactly once during the call when a font is set at that
point (for `setFont`: the new font is not null), and not at all when none is. A `wrapText`
that changes the text always has a font and computes the layout exactly once. -/
theorem mutators_invalidate (P : FontProvider) (s : State) :
    (∀ t : String, t ≠ s.text →
      (setText P s t).1.textScreenCoords = Rect.sentinel ∧
      layoutCount (setText P s t).2 = if s.font.isSome then 1 else 0) ∧
    (∀ f : Option Nat, f ≠ s.font →
      (setFont P s f).1.textScreenCoords = Rect.sentinel ∧
      layoutCount (setFont P s f).2 = if f.isSome then 1 else 0) ∧
    (∀ a : AlignmentFlag, a ≠ s.align →
      (setAlign P s a).1.textScreenCoords = Rect.sentinel ∧
      layoutCount (setAlign P s a).2 = if s.font.isSome then 1 else 0) ∧
    (∀ w : Int, (wrapText P s w).1.text ≠ s.text →
      s.font.isSome ∧
      (wrapText P s w).1.textScreenCoords = Rect.sentinel ∧
      layoutCount (wrapText P s w).2 = 1) := by
  refine ⟨?_, ?_, ?_, ?_⟩
  · intro t ht
    have h : ¬ s.text = t := fun h => ht h.symm
    simp only [setText, h, if_false]
    exact ⟨update_textScreenCoords P _, layoutCount_update P _⟩
  · intro f hf
    have h : ¬ s.font = f := fun h => hf h.symm
    simp only [setFont, h, if_false]
    exact ⟨update_textScreenCoords P _, layoutCount_update P _⟩
  · intro a ha
    have h : ¬ s.align = a := fun h => ha h.symm
    simp only [setAlign, h, if_false]
    exact ⟨update_textScreenCoords P _, layoutCount_update P _⟩
  · intro w hw
    cases hfont : s.font with
    | none => simp [wrapText, hfont] at hw
    | some f =>
      refine ⟨rfl, ?_, ?_⟩
      · simp only [wrapText, hfont]
        exact update_textScreenCoords P _
      · simp only [wrapText, hfont, layoutCount, List.countP_cons, Event.isLayout]
        have := layoutCount_update P { s with text := P.wrapText f s.text w }
        simp only [layoutCount, hfont] at this
        simp [this]

/-- Witness of `mutators_invalidate`: the state with font `1` and text `"A"`, changed by
`setText("AB")`, `setFont(2)`, `setAlign(1)` and `wrapText(0)`. -/
theorem mutators_invalidate_witness :
    ("AB" ≠ readyState.text ∧
      (setText probeProvider readyState "AB").1.textScreenCoords = Rect.sentinel ∧
      layoutCount (setText probeProvider readyState "AB").2
        = if readyState.font.isSome then 1 else 0) ∧
    (some 2 ≠ readyState.font ∧
      (setFont probeProvider readyState (some 2)).1.textScreenCoords = Rect.sentinel ∧
      layoutCount (setFont probeProvider readyState (some 2)).2
        = if (some 2 : Option Nat).isSome then 1 else 0) ∧
    (1 ≠ readyState.align ∧
      (setAlign probeProvider readyState 1).1.textScreenCoords = Rect.sentinel ∧
      layoutCount (setAlign probeProvider readyState 1).2
        = if readyState.font.isSome then 1 else 0) ∧
    ((wrapText probeProvider readyState 0).1.text ≠ readyState.text ∧
      readyState.font.isSome ∧
      (wrapText probeProvider readyState 0).1.textScreenCoords = Rect.sentinel ∧
      layoutCount (wrapText probeProvider readyState 0).2 = 1) :=
  ⟨⟨by decide, (mutators_invalidate probeProvider readyState).1 "AB" (by decide)⟩,
   ⟨by decide, (mutators_invalidate probeProvider readyState).2.1 (some 2) (by decide)⟩,
   ⟨by decide, (mutators_invalidate probeProvider readyState).2.2.1 1 (by decide)⟩,
   ⟨by decide, (mutators_invalidate probeProvider readyState).2.2.2 0 (by decide)⟩⟩

/-- C4: `setText` with a string equal to the current text, `setFont` with the current font
and `setAlign` with the current alignment return the state unchanged, in every field, and with
an empty trace: no layout computation, and no other call either. -/
theorem mutators_same_value_noop (P : FontProvider) (s : State) :
    setText P s s.text = (s, []) ∧ setFont P s s.font = (s, []) ∧
      setAlign P s s.align = (s, []) ∧
      layoutCount (setText P s s.text).2 = 0 ∧ layoutCount (setFont P s s.font).2 = 0 ∧
      layoutCount (setAlign P s s.align).2 = 0 := by
  simp [setText, setFont, setAlign, layoutCount]

/-- C10: with no font set, `draw`, `drawWithHighlight` and `wrapText` return the state
unchanged, in every field, with an empty trace: no call of a font method and nothing submitted
to the draw pool, for all arguments. -/
theorem no_font_noop {K : Type} [LinearOrderedField K] [FloorRing K] (cosf : K → K)
    (P : FontProvider) (atlas : Nat → AtlasRegion) (s : State) (hfont : s.font = none)
    (rect : Rect) (color baseColor highlightColor : Color) (highlightPos highlightWidth : K)
    (maxWidth : Int) :
    draw P atlas s rect color = (s, []) ∧
      drawWithHighlight cosf P atlas s rect baseColor highlightColor highlightPos highlightWidth
        = (s, []) ∧
      wrapText P s maxWidth = (s, []) := by
  simp [draw, drawWithHighlight, wrapText, hfont]

/-- Witness of `no_font_noop`: a new `CachedText`. -/
theorem no_font_noop_witness :
    new.font = none ∧
      draw probeProvider atlasA new rectA black = (new, []) ∧
      drawWithHighlight cosApprox probeProvider atlasA new rectA black white (0 : ℚ) 1
        = (new, []) ∧
      wrapText probeProvider new 3 = (new, []) :=
  ⟨rfl, no_font_noop cosApprox probeProvider atlasA new rfl rectA black black white 0 1 3⟩

section LayoutInvariant

variable {K : Type} [LinearOrderedField K] [FloorRing K]

/-- The layout fields of `s` are the provider's layout of its text, alignment and font. -/
theorem update_fresh (P : FontProvider) (s : State) (f : Nat)
    (h : (update P s).1.font = some f) :
    ((update P s).1.glyphsPositions, (update P s).1.textSize)
      = P.calculateGlyphsPositions f (update P s).1.text (update P s).1.align := by
  unfold update at h ⊢
  split at h
  · rename_i g hg
    simp only [hg] at h ⊢
    cases h
    rfl
  · rename_i hg
    simp [hg] at h

theorem draw_keeps_layout (P : FontProvider) (atlas : Nat → AtlasRegion) (s : State)
    (rect : Rect) (color : Color) :
    (draw P atlas s rect color).1.font = s.font ∧
      (draw P atlas s rect color).1.text = s.text ∧
      (draw P atlas s rect color).1.align = s.align ∧
      (draw P atlas s rect color).1.glyphsPositions = s.glyphsPositions ∧
      (draw P atlas s rect color).1.textSize = s.textSize := by
  unfold draw
  split
  · simp
  · simp only [drawRefill, drawAtlasCheck]
    split <;> split <;> simp

theorem drawWithHighlight_state (cosf : K → K) (P : FontProvider) (atlas : Nat → AtlasRegion)
    (s : State) (rect : Rect) (baseColor highlightColor : Color)
    (highlightPos highlightWidth : K) :
    (drawWithHighlight cosf P atlas s rect baseColor highlightColor highlightPos
        highlightWidth).1 =
      match s.font with
      | none => s
      | some f =>
        if s.text.utf8ByteSize = 0 then s
        else (highlightLayout P f (highlightAtlasCheck atlas f s).1 rect).1 := by
  unfold drawWithHighlight
  split
  · rfl
  · split
    · rfl
    · simp only
      split <;> rfl

theorem drawWithHighlight_keeps_layout (cosf : K → K) (P : FontProvider)
    (atlas : Nat → AtlasRegion) (s : State) (rect : Rect) (baseColor highlightColor : Color)
    (highlightPos highlightWidth : K)
    (hs : ∀ f, s.font = some f →
      (s.glyphsPositions, s.textSize) = P.calculateGlyphsPositions f s.text s.align) :
    ∀ f, (drawWithHighlight cosf P atlas s rect baseColor highlightColor highlightPos
        highlightWidth).1.font = some f →
      ((drawWithHighlight cosf P atlas s rect baseColor highlightColor highlightPos
          highlightWidth).1.glyphsPositions,
        (drawWithHighlight cosf P atlas s rect baseColor highlightColor highlightPos
          highlightWidth).1.textSize)
      = P.calculateGlyphsPositions f
          (drawWithHighlight cosf P atlas s rect baseColor highlightColor highlightPos
            highlightWidth).1.text
          (drawWithHighlight cosf P atlas s rect baseColor highlightColor highlightPos
            highlightWidth).1.align := by
  rw [drawWithHighlight_state]
  cases hfont : s.font with
  | none => intro f hf; simp [hfont] at hf
  | some g =>
    have hg := hs g hfont
    simp only
    split
    · intro f hf
      rw [hfont] at hf
      cases hf
      exact hg
    · simp only [highlightLayout, highlightAtlasCheck]
      have h2 : s.textSize = (P.calculateGlyphsPositions g s.text s.align).2 := by
        rw [← hg]
      split <;> split <;> intro f hf <;> simp [hfont] at hf <;> subst hf
      all_goals first | exact hg | (simp only; rw [h2])

theorem step_keeps_layout (cosf : K → K) (P : FontProvider) (atlas : Nat → AtlasRegion)
    (s : State) (c : Call K)
    (hs : ∀ f, s.font = some f →
      (s.glyphsPositions, s.textSize) = P.calculateGlyphsPositions f s.text s.align) :
    ∀ f, (step cosf P atlas s c).1.font = some f →
      ((step cosf P atlas s c).1.glyphsPositions, (step cosf P atlas s c).1.textSize)
        = P.calculateGlyphsPositions f (step cosf P atlas s c).1.text
            (step cosf P atlas s c).1.align := by
  cases c with
  | setText t =>
    simp only [step, setText]
    split
    · exact hs
    · exact fun f hf => update_fresh P _ f hf
  | setFont g =>
    simp only [step, setFont]
    split
    · exact hs
    · exact fun f hf => update_fresh P _ f hf
  | setAlign a =>
    simp only [step, setAlign]
    split
    · exact hs
    · exact fun f hf => update_fresh P _ f hf
  | wrapText w =>
    simp only [step, wrapText]
    split
    · exact hs
    · exact fun f hf => update_fresh P _ f hf
  | draw rect color =>
    simp only [step]
    obtain ⟨h1, h2, h3, h4, h5⟩ := draw_keeps_layout P atlas s rect color
    intro f hf
    rw [h2, h3, h4, h5]
    exact hs f (h1 ▸ hf)
  | drawWithHighlight rect b h p w =>
    simp only [step]
    exact drawWithHighlight_keeps_layout cosf P atlas s rect b h p w hs

theorem run_keeps_layout (cosf : K → K) (P : FontProvider)
    (calls : List ((Nat → AtlasRegion) × Call K)) :
    ∀ s : State,
      (∀ f, s.font = some f →
        (s.glyphsPositions, s.textSize) = P.calculateGlyphsPositions f s.text s.align) →
      ∀ f, (run cosf P s calls).1.font = some f →
        ((run cosf P s calls).1.glyphsPositions, (run cosf P s calls).1.textSize)
          = P.calculateGlyphsPositions f (run cosf P s calls).1.text
              (run cosf P s calls).1.align := by
  induction calls with
  | nil => intro s hs; exact hs
  | cons head rest ih =>
    intro s hs
    obtain ⟨atlas, c⟩ := head
    simp only [run]
    exact ih _ (step_keeps_layout cosf P atlas s c hs)

/-- C5: in every state reached from a new `CachedText` by any sequence of `setText`, `setFont`,
`setAlign`, `wrapText`, `draw` and `drawWithHighlight` calls (the atlas regions changing freely
between them), if a font is set then `glyphsPositions` and `textSize` are what
`calculateGlyphsPositions` returns for the current text and alignment under the current font. -/
theorem layout_fresh (cosf : K → K) (P : FontProvider)
    (calls : List ((Nat → AtlasRegion) × Call K)) (f : Nat)
    (hfont : (run cosf P new calls).1.font = some f) :
    ((run cosf P new calls).1.glyphsPositions, (run cosf P new calls).1.textSize)
      = P.calculateGlyphsPositions f (run cosf P new calls).1.text
          (run cosf P new calls).1.align :=
  run_keeps_layout cosf P calls new (fun g hg => by simp [new] at hg) f hfont

end LayoutInvariant

/-- Witness of `layout_fresh`: the sequence `sampleCalls`, which ends with font `1` set. -/
theorem layout_fresh_witness :
    (run cosApprox probeProvider new sampleCalls).1.font = some 1 ∧
    ((run cosApprox probeProvider new sampleCalls).1.glyphsPositions,
      (run cosApprox probeProvider new sampleCalls).1.textSize)
      = probeProvider.calculateGlyphsPositions 1
          (run cosApprox probeProvider new sampleCalls).1.text
          (run cosApprox probeProvider new sampleCalls).1.align :=
  ⟨by decide, layout_fresh cosApprox probeProvider sampleCalls 1 (by decide)⟩

/-! ## Theorems: the vertex buffer submitted by `draw` -/

section BufferInvariant

variable {K : Type} [LinearOrderedField K] [FloorRing K]

theorem update_buffer_valid (P : FontProvider) (s : State) (f : Nat)
    (_hf : (update P s).1.font = some f)
    (hr : (update P s).1.textScreenCoords ≠ Rect.sentinel) :
    (update P s).1.coordsBuffer
      = P.fillTextCoords f (update P s).1.atlasRegion (update P s).1.text (update P s).1.textSize
          (update P s).1.align (update P s).1.textScreenCoords (update P s).1.glyphsPositions :=
  absurd (update_textScreenCoords P s) hr

theorem draw_buffer_valid (P : FontProvider) (atlas : Nat → AtlasRegion) (s : State)
    (rect : Rect) (color : Color) (hrect : rect ≠ Rect.sentinel)
    (hs : ∀ f, s.font = some f → s.textScreenCoords ≠ Rect.sentinel →
      s.coordsBuffer = P.fillTextCoords f s.atlasRegion s.text s.textSize s.align
        s.textScreenCoords s.glyphsPositions)
    (f : Nat) (hf : s.font = some f) :
    (draw P atlas s rect color).1.font = some f ∧
    (draw P atlas s rect color).1.textScreenCoords = rect ∧
    (draw P atlas s rect color).1.atlasRegion = atlas f ∧
    (draw P atlas s rect color).1.coordsBuffer
      = P.fillTextCoords f (atlas f) s.text s.textSize s.align rect s.glyphsPositions ∧
    (draw P atlas s rect color).2.getLast?
      = some (Event.addTexturedCoordsBuffer (P.getTexture f (atlas f))
          (P.fillTextCoords f (atlas f) s.text s.textSize s.align rect s.glyphsPositions)
          color) := by
  have hs' := hs f hf
  simp only [draw, hf, drawAtlasCheck, drawRefill]
  by_cases h1 : atlas f = s.atlasRegion
  · by_cases h2 : s.textScreenCoords = rect
    · have h3 := hs' (by rw [h2]; exact hrect)
      rw [h2] at h3
      simp [h1, h2, hf, ← h3]
    · simp [h1, h2, hf]
  · have h2 : ¬ Rect.sentinel = rect := fun h => hrect h.symm
    simp [h1, h2, hf]

theorem step_buffer_valid (cosf : K → K) (P : FontProvider) (atlas : Nat → AtlasRegion)
    (s : State) (c : Call K) (hc : c.isHighlight = false)
    (hrect : c.rect? ≠ some Rect.sentinel)
    (hs : ∀ f, s.font = some f → s.textScreenCoords ≠ Rect.sentinel →
      s.coordsBuffer = P.fillTextCoords f s.atlasRegion s.text s.textSize s.align
        s.textScreenCoords s.glyphsPositions) :
    ∀ f, (step cosf P atlas s c).1.font = some f →
      (step cosf P atlas s c).1.textScreenCoords ≠ Rect.sentinel →
      (step cosf P atlas s c).1.coordsBuffer
        = P.fillTextCoords f (step cosf P atlas s c).1.atlasRegion
            (step cosf P atlas s c).1.text (step cosf P atlas s c).1.textSize
            (step cosf P atlas s c).1.align (step cosf P atlas s c).1.textScreenCoords
            (step cosf P atlas s c).1.glyphsPositions := by
  cases c with
  | setText t =>
    simp only [step, setText]
    split
    · exact hs
    · exact fun f hf hr => update_buffer_valid P _ f hf hr
  | setFont g =>
    simp only [step, setFont]
    split
    · exact hs
    · exact fun f hf hr => update_buffer_valid P _ f hf hr
  | setAlign a =>
    simp only [step, setAlign]
    split
    · exact hs
    · exact fun f hf hr => update_buffer_valid P _ f hf hr
  | wrapText w =>
    simp only [step, wrapText]
    split
    · exact hs
    · exact fun f hf hr => update_buffer_valid P _ f hf hr
  | draw rect color =>
    simp only [step]
    have hne : rect ≠ Rect.sentinel := fun h => hrect (by simp [Call.rect?, h])
    cases hfont : s.font with
    | none =>
      have : draw P atlas s rect color = (s, []) := by simp [draw, hfont]
      rw [this]
      exact hs
    | some g =>
      obtain ⟨k1, k2, k3, k4, -⟩ := draw_buffer_valid P atlas s rect color hne hs g hfont
      obtain ⟨-, l2, l3, l4, l5⟩ := draw_keeps_layout P atlas s rect color
      intro f hf _
      rw [k1] at hf
      cases hf
      rw [k4, k3, k2, l2, l3, l4, l5]
  | drawWithHighlight rect b h p w => simp [Call.isHighlight] at hc

theorem run_buffer_valid (cosf : K → K) (P : FontProvider)
    (calls : List ((Nat → AtlasRegion) × Call K))
    (hcalls : ∀ ac ∈ calls, ac.2.isHighlight = false ∧ ac.2.rect? ≠ some Rect.sentinel) :
    ∀ s : State,
      (∀ f, s.font = some f → s.textScreenCoords ≠ Rect.sentinel →
        s.coordsBuffer = P.fillTextCoords f s.atlasRegion s.text s.textSize s.align
          s.textScreenCoords s.glyphsPositions) →
      ∀ f, (run cosf P s calls).1.font = some f →
        (run cosf P s calls).1.textScreenCoords ≠ Rect.sentinel →
        (run cosf P s calls).1.coordsBuffer
          = P.fillTextCoords f (run cosf P s calls).1.atlasRegion (run cosf P s calls).1.text
              (run cosf P s calls).1.textSize (run cosf P s calls).1.align
              (run cosf P s calls).1.textScreenCoords
              (run cosf P s calls).1.glyphsPositions := by
  induction calls with
  | nil => intro s hs; exact hs
  | cons head rest ih =>
    intro s hs
    obtain ⟨atlas, c⟩ := head
    have hhead := hcalls (atlas, c) (List.mem_cons_self _ _)
    simp only [run]
    exact ih (fun ac hac => hcalls ac (List.mem_cons_of_mem _ hac)) _
      (step_buffer_valid cosf P atlas s c hhead.1 hhead.2 hs)

/-- The buffer invariant of `draw` on its own: after any sequence of mutators and `draw` calls
into rectangles other than the sentinel (no `drawWithHighlight`), the atlas regions changing
freely, a `draw(rect, color)` with a font set submits last the fill for the current text, size,
alignment and glyph positions within `rect` under the font's current atlas region. -/
theorem draw_submits_current_fill_without_highlight (cosf : K → K) (P : FontProvider)
    (calls : List ((Nat → AtlasRegion) × Call K))
    (hcalls : ∀ ac ∈ calls, ac.2.isHighlight = false ∧ ac.2.rect? ≠ some Rect.sentinel)
    (atlas : Nat → AtlasRegion) (rect : Rect) (color : Color) (hrect : rect ≠ Rect.sentinel)
    (f : Nat) (hf : (run cosf P new calls).1.font = some f) :
    (draw P atlas (run cosf P new calls).1 rect color).2.getLast?
      = some (Event.addTexturedCoordsBuffer (P.getTexture f (atlas f))
          (P.fillTextCoords f (atlas f) (run cosf P new calls).1.text
            (run cosf P new calls).1.textSize (run cosf P new calls).1.align rect
            (run cosf P new calls).1.glyphsPositions) color) :=
  (draw_buffer_valid P atlas _ rect color hrect
    (run_buffer_valid cosf P calls hcalls new (fun g hg => by simp [new] at hg)) f hf).2.2.2.2

end BufferInvariant

/-- C2 (evaluation at the failing inputs): after `setFont(1)`, `setText("A")`,
`drawWithHighlight(rectA, ...)`, the call `draw(rectA, black)` fills nothing and submits the
buffer of the constructor, which was never filled, whereas the fill for the current state is
not empty; and after `draw(rectA, ...)` in atlas region `7` followed by
`drawWithHighlight(rectA, ...)` in region `8`, the call `draw(rectA, black)` fills nothing and
submits the buffer that was filled for region `7`, whereas the fill under the current region
`8` differs. -/
theorem stale_buffer_submitted :
    (draw probeProvider atlasA (run cosApprox probeProvider new highlightThenDraw).1 rectA
        black).2
      = [Event.getAtlasRegion 1, Event.getTexture 1, Event.addTexturedCoordsBuffer 1 [] black] ∧
    probeProvider.fillTextCoords 1 (atlasA 1)
        (run cosApprox probeProvider new highlightThenDraw).1.text
        (run cosApprox probeProvider new highlightThenDraw).1.textSize
        (run cosApprox probeProvider new highlightThenDraw).1.align rectA
        (run cosApprox probeProvider new highlightThenDraw).1.glyphsPositions
      = [1, 7, 1, 1, 0, 0, 10, 10] ∧
    (draw probeProvider atlasB (run cosApprox probeProvider new repackThenDraw).1 rectA
        black).2
      = [Event.getAtlasRegion 1, Event.getTexture 1,
          Event.addTexturedCoordsBuffer 1 [1, 7, 1, 1, 0, 0, 10, 10] black] ∧
    probeProvider.fillTextCoords 1 (atlasB 1)
        (run cosApprox probeProvider new repackThenDraw).1.text
        (run cosApprox probeProvider new repackThenDraw).1.textSize
        (run cosApprox probeProvider new repackThenDraw).1.align rectA
        (run cosApprox probeProvider new repackThenDraw).1.glyphsPositions
      = [1, 8, 1, 1, 0, 0, 10, 10] := by
  decide

/-! ## Theorems: the highlight colours -/

section HighlightLemmas

variable {K : Type} [LinearOrderedField K]

theorem wrapBelow_of_nonneg [FloorRing K] (textLen : Nat) (hlen : 0 < textLen) (x : K)
    (hx : 0 ≤ x) :
    wrapBelow textLen hlen x = x := by
  rw [wrapBelow, if_neg (not_lt.mpr hx)]

theorem wrapAbove_of_lt [FloorRing K] (textLen : Nat) (hlen : 0 < textLen) (x : K)
    (hx : x < (textLen : K)) :
    wrapAbove textLen hlen x = x := by
  rw [wrapAbove, if_neg (not_le.mpr hx)]

theorem wrapBelow_nonneg [FloorRing K] (textLen : Nat) (hlen : 0 < textLen) (x : K) :
    0 ≤ wrapBelow textLen hlen x := by
  refine wrapBelow.induct textLen hlen (fun y => 0 ≤ wrapBelow textLen hlen y) ?_ ?_ x
  · intro y hy ih
    rw [wrapBelow, if_pos hy]
    exact ih
  · intro y hy
    rw [wrapBelow, if_neg hy]
    exact not_lt.mp hy

theorem wrapAbove_range [FloorRing K] (textLen : Nat) (hlen : 0 < textLen) (x : K)
    (h0 : 0 ≤ x) :
    0 ≤ wrapAbove textLen hlen x ∧ wrapAbove textLen hlen x < (textLen : K) := by
  revert h0
  refine wrapAbove.induct textLen hlen
    (fun y => 0 ≤ y →
      0 ≤ wrapAbove textLen hlen y ∧ wrapAbove textLen hlen y < (textLen : K)) ?_ ?_ x
  · intro y hy ih h0
    rw [wrapAbove, if_pos hy]
    exact ih (by linarith)
  · intro y hy h0
    rw [wrapAbove, if_neg hy]
    exact ⟨h0, not_le.mp hy⟩

theorem wrapHighlightPos_range [FloorRing K] (textLen : Nat) (hlen : 0 < textLen) (x : K) :
    0 ≤ wrapHighlightPos textLen hlen x ∧ wrapHighlightPos textLen hlen x < (textLen : K) :=
  wrapAbove_range textLen hlen _ (wrapBelow_nonneg textLen hlen x)

theorem wrapHighlightPos_of_range [FloorRing K] (textLen : Nat) (hlen : 0 < textLen) (x : K)
    (h0 : 0 ≤ x)
    (h1 : x < (textLen : K)) : wrapHighlightPos textLen hlen x = x := by
  rw [wrapHighlightPos, wrapBelow_of_nonneg textLen hlen x h0, wrapAbove_of_lt textLen hlen x h1]

theorem abs_index_sub_lt (textLen : Nat) (p : K) (i : Nat) (h0 : 0 ≤ p)
    (h1 : p < (textLen : K)) (hi : i < textLen) : |(i : K) - p| < (textLen : K) := by
  have hi' : (i : K) < (textLen : K) := by exact_mod_cast hi
  have hi0 : (0 : K) ≤ (i : K) := Nat.cast_nonneg i
  rw [abs_lt]
  constructor <;> linarith

theorem glyphDist_nonneg (textLen : Nat) (p : K) (i : Nat) (h0 : 0 ≤ p)
    (h1 : p < (textLen : K)) (hi : i < textLen) : 0 ≤ glyphDist textLen p i := by
  have h := abs_index_sub_lt textLen p i h0 h1 hi
  simp only [glyphDist]
  exact le_min (abs_nonneg _) (by linarith)

theorem truncToInt_intCast [FloorRing K] (z : Int) : truncToInt ((z : Int) : K) = z := by
  unfold truncToInt
  split
  · exact Int.floor_intCast z
  · exact Int.ceil_intCast z

theorem toUInt8_intCast [FloorRing K] (c : Fin 256) : toUInt8 (((c.val : Int)) : K) = c := by
  unfold toUInt8
  rw [truncToInt_intCast]
  apply Fin.ext
  have := c.isLt
  simp only [Fin.ofNat, Nat.reduceAdd]
  omega

theorem blendChannel_zero (base highlight : Fin 256) :
    blendChannel base highlight (0 : K) = ((base.val : Int) : K) := by
  simp [blendChannel]

theorem blendChannel_one (base highlight : Fin 256) :
    blendChannel base highlight (1 : K) = ((highlight.val : Int) : K) := by
  simp [blendChannel]

theorem blendColor_zero [FloorRing K] (baseColor highlightColor : Color) :
    blendColor baseColor highlightColor (0 : K) = baseColor := by
  simp only [blendColor, blendChannel_zero, toUInt8_intCast]

theorem blendColor_one [FloorRing K] (baseColor highlightColor : Color) :
    blendColor baseColor highlightColor (1 : K) = highlightColor := by
  simp only [blendColor, blendChannel_one, toUInt8_intCast]

theorem highlightFactor_of_le (cosf : K → K) (dist w : K) (h : w ≤ dist) :
    highlightFactor cosf dist w = (0, []) := by
  rw [highlightFactor, if_neg (not_lt.mpr h)]

theorem highlightFactor_zero (cosf : K → K) (hcos : cosf 0 = 1) (w : K) (hw : 0 < w) :
    (highlightFactor cosf 0 w).1 = 1 := by
  rw [highlightFactor, if_pos hw]
  simp [hcos]

theorem highlightColors_getElem? [FloorRing K] (cosf : K → K) (textLen : Nat)
    (hlen : 0 < textLen)
    (pos w : K) (baseColor highlightColor : Color) (i : Nat) (hi : i < textLen) :
    (highlightColors cosf textLen hlen pos w baseColor highlightColor)[i]? =
      some (glyphColor cosf textLen (wrapHighlightPos textLen hlen pos) w baseColor
        highlightColor i) := by
  simp [highlightColors, List.getElem?_map, List.getElem?_range hi]

end HighlightLemmas

section HighlightClaims

variable {K : Type} [LinearOrderedField K]

theorem glyphDist_self (textLen : Nat) (p : Nat) : glyphDist textLen (p : K) p = 0 := by
  simp [glyphDist]

/-- Over exact arithmetic, for `textLen ≥ 1`, a position `0 ≤ p < textLen` and an index
`i < textLen`, the value `min(|i - p|, textLen - |i - p|)` is the circular distance: the least
of `|i - p + k * textLen|` over the integers `k` (a lower bound that is attained); it lies in
`[0, textLen / 2]`; for `p = 0` index `textLen - i` is as far as index `i`; and for
`textLen = 10`, `p = 0`, indices `9` and `1` are both at distance `1`. -/
theorem glyphDist_circular (textLen : Nat) (p : K) (h0 : 0 ≤ p) (h1 : p < (textLen : K))
    (i : Nat) (hi : i < textLen) :
    (∀ k : Int, glyphDist textLen p i ≤ |(i : K) - p + (k : K) * (textLen : K)|) ∧
    (∃ k : Int, glyphDist textLen p i = |(i : K) - p + (k : K) * (textLen : K)|) ∧
    0 ≤ glyphDist textLen p i ∧ glyphDist textLen p i ≤ (textLen : K) / 2 ∧
    glyphDist textLen (0 : K) (textLen - i) = glyphDist textLen (0 : K) i ∧
    glyphDist 10 (0 : K) 9 = 1 ∧ glyphDist 10 (0 : K) 1 = 1 := by
  have hd := abs_index_sub_lt textLen p i h0 h1 hi
  have hn : (0 : K) < (textLen : K) := lt_of_le_of_lt h0 h1
  have hlt := abs_lt.mp hd
  refine ⟨?_, ?_, ?_, ?_, ?_, ?_, ?_⟩
  · intro k
    simp only [glyphDist]
    rcases lt_trichotomy k 0 with hk | hk | hk
    · have hk' : (k : K) ≤ -1 := by exact_mod_cast (by omega : k ≤ -1)
      have hmul : (k : K) * (textLen : K) ≤ -(textLen : K) := by nlinarith
      have hneg : (i : K) - p + (k : K) * (textLen : K) ≤ 0 := by linarith [hlt.2]
      rw [abs_of_nonpos hneg]
      refine le_trans (min_le_right _ _) ?_
      have := le_abs_self ((i : K) - p)
      linarith
    · subst hk
      simp
    · have hk' : (1 : K) ≤ (k : K) := by exact_mod_cast (by omega : (1 : Int) ≤ k)
      have hmul : (textLen : K) ≤ (k : K) * (textLen : K) := by nlinarith
      have hpos : 0 ≤ (i : K) - p + (k : K) * (textLen : K) := by linarith [hlt.1]
      rw [abs_of_nonneg hpos]
      refine le_trans (min_le_right _ _) ?_
      have := neg_abs_le ((i : K) - p)
      linarith
  · simp only [glyphDist]
    rcases le_total (|(i : K) - p|) ((textLen : K) - |(i : K) - p|) with hle | hle
    · exact ⟨0, by simp [min_eq_left hle]⟩
    · rw [min_eq_right hle]
      rcases le_total 0 ((i : K) - p) with hs | hs
      · refine ⟨-1, ?_⟩
        rw [abs_of_nonneg hs, abs_of_nonpos (by push_cast; linarith [hlt.2])]
        push_cast
        ring
      · refine ⟨1, ?_⟩
        rw [abs_of_nonpos hs, abs_of_nonneg (by push_cast; linarith [hlt.1])]
        push_cast
        ring
  · exact glyphDist_nonneg textLen p i h0 h1 hi
  · simp only [glyphDist]
    rcases le_total (|(i : K) - p|) ((textLen : K) - |(i : K) - p|) with hle | hle
    · rw [min_eq_left hle]; linarith
    · rw [min_eq_right hle]; linarith
  · have hi' : (i : K) ≤ (textLen : K) := by exact_mod_cast hi.le
    simp only [glyphDist, sub_zero]
    rw [Nat.cast_sub hi.le, abs_of_nonneg (by linarith : (0 : K) ≤ (textLen : K) - (i : K)),
      abs_of_nonneg (Nat.cast_nonneg i), sub_sub_cancel, min_comm]
  · simp only [glyphDist]
    norm_num
  · simp only [glyphDist]
    norm_num

/-- C8: for `0 ≤ t ≤ 1` and 8-bit `base`, `highlight`, the value `base + (highlight - base) * t`
truncated to an integer lies between `min(base, highlight)` and `max(base, highlight)`, hence in
`[0, 255]`, and the cast to `uint8_t` returns that integer unchanged (no wrap). -/
theorem blend_channel_bounds [FloorRing K] (base highlight : Fin 256) (t : K) (h0 : 0 ≤ t)
    (h1 : t ≤ 1) :
    min (base.val : Int) (highlight.val : Int) ≤ truncToInt (blendChannel base highlight t) ∧
    truncToInt (blendChannel base highlight t) ≤ max (base.val : Int) (highlight.val : Int) ∧
    0 ≤ truncToInt (blendChannel base highlight t) ∧
    truncToInt (blendChannel base highlight t) ≤ 255 ∧
    ((toUInt8 (blendChannel base highlight t)).val : Int)
      = truncToInt (blendChannel base highlight t) := by
  have hb := base.isLt
  have hh := highlight.isLt
  have hb0 : (0 : K) ≤ ((base.val : Int) : K) := by exact_mod_cast Int.natCast_nonneg base.val
  have hlo : ((min (base.val : Int) (highlight.val : Int) : Int) : K)
      ≤ blendChannel base highlight t := by
    simp only [blendChannel]
    rcases le_total (base.val : Int) (highlight.val : Int) with hle | hle
    · rw [min_eq_left hle]
      have : (0 : K) ≤ (((highlight.val : Int) - (base.val : Int) : Int) : K) := by
        exact_mod_cast sub_nonneg.mpr hle
      nlinarith
    · rw [min_eq_right hle]
      have : (((highlight.val : Int) - (base.val : Int) : Int) : K) ≤ 0 := by
        exact_mod_cast sub_nonpos.mpr hle
      push_cast at this ⊢
      nlinarith
  have hhi : blendChannel base highlight t
      ≤ ((max (base.val : Int) (highlight.val : Int) : Int) : K) := by
    simp only [blendChannel]
    rcases le_total (base.val : Int) (highlight.val : Int) with hle | hle
    · rw [max_eq_right hle]
      have : (0 : K) ≤ (((highlight.val : Int) - (base.val : Int) : Int) : K) := by
        exact_mod_cast sub_nonneg.mpr hle
      push_cast at this ⊢
      nlinarith
    · rw [max_eq_left hle]
      have : (((highlight.val : Int) - (base.val : Int) : Int) : K) ≤ 0 := by
        exact_mod_cast sub_nonpos.mpr hle
      nlinarith
  have hmin0 : (0 : Int) ≤ min (base.val : Int) (highlight.val : Int) :=
    le_min (Int.natCast_nonneg _) (Int.natCast_nonneg _)
  have hmax : max (base.val : Int) (highlight.val : Int) ≤ 255 := by
    apply max_le <;> omega
  have hx0 : (0 : K) ≤ blendChannel base highlight t :=
    le_trans (by exact_mod_cast hmin0) hlo
  have htr : truncToInt (blendChannel base highlight t) = ⌊blendChannel base highlight t⌋ := by
    rw [truncToInt, if_pos hx0]
  have hA : min (base.val : Int) (highlight.val : Int)
      ≤ truncToInt (blendChannel base highlight t) := by
    rw [htr]
    exact Int.le_floor.mpr hlo
  have hB : truncToInt (blendChannel base highlight t)
      ≤ max (base.val : Int) (highlight.val : Int) := by
    rw [htr]
    have := le_trans (Int.floor_le (blendChannel base highlight t)) hhi
    exact_mod_cast this
  refine ⟨hA, hB, by omega, by omega, ?_⟩
  simp only [toUInt8, Fin.ofNat, Nat.reduceAdd]
  omega

end HighlightClaims

section WidthClaims

variable {K : Type} [LinearOrderedField K]

/-- C9: for a non-empty text, every highlight position and all colours: with
`highlightWidth ≤ 0` every entry of `textColors` is `(i, baseColor)` and no division by
`highlightWidth` is evaluated; and for every `highlightWidth`, each division that is evaluated
has a divisor `> 0`, so none divides by zero. -/
theorem nonpositive_width_all_base [FloorRing K] (cosf : K → K) (textLen : Nat)
    (hlen : 0 < textLen) (pos w : K) (baseColor highlightColor : Color) :
    (w ≤ 0 →
      highlightColors cosf textLen hlen pos w baseColor highlightColor
          = (List.range textLen).map (fun i => (i, baseColor)) ∧
        highlightDivisors cosf textLen hlen pos w = []) ∧
    (∀ d ∈ highlightDivisors cosf textLen hlen pos w, 0 < d) := by
  obtain ⟨hp0, hp1⟩ := wrapHighlightPos_range textLen hlen pos
  constructor
  · intro hw
    have hfac : ∀ i ∈ List.range textLen,
        highlightFactor cosf (glyphDist textLen (wrapHighlightPos textLen hlen pos) i) w
          = (0, []) := by
      intro i hi
      have hd := glyphDist_nonneg textLen _ i hp0 hp1 (List.mem_range.mp hi)
      exact highlightFactor_of_le cosf _ w (le_trans hw hd)
    constructor
    · simp only [highlightColors]
      apply List.map_congr_left
      intro i hi
      rw [glyphColor, hfac i hi, blendColor_zero]
    · simp only [highlightDivisors, List.flatMap_eq_nil_iff]
      intro i hi
      rw [hfac i hi]
  · intro d hd
    simp only [highlightDivisors, List.mem_flatMap, List.mem_range] at hd
    obtain ⟨i, hi, hmem⟩ := hd
    have hdist := glyphDist_nonneg textLen _ i hp0 hp1 hi
    unfold highlightFactor at hmem
    split at hmem
    · rename_i hlt
      simp only [List.mem_singleton] at hmem
      rw [hmem]
      exact lt_of_le_of_lt hdist hlt
    · simp at hmem

end WidthClaims

/-- Witness of `nonpositive_width_all_base`: two glyphs, position `7`, width `0`. -/
theorem nonpositive_width_all_base_witness :
    (0 : ℚ) ≤ 0 ∧
      highlightColors cosApprox 2 (by decide) (7 : ℚ) 0 black white
          = (List.range 2).map (fun i => (i, black)) ∧
      highlightDivisors cosApprox 2 (by decide) (7 : ℚ) 0 = [] :=
  ⟨le_refl 0,
    (nonpositive_width_all_base cosApprox 2 (by decide) (7 : ℚ) 0 black white).1 (le_refl 0)⟩

/-- Witness of `blend_channel_bounds`: base `10`, highlight `200`, `t = 1/3`. -/
theorem blend_channel_bounds_witness :
    (0 : ℚ) ≤ 1 / 3 ∧ (1 / 3 : ℚ) ≤ 1 ∧
    (min ((10 : Fin 256).val : Int) ((200 : Fin 256).val : Int)
        ≤ truncToInt (blendChannel 10 200 (1 / 3 : ℚ)) ∧
    truncToInt (blendChannel 10 200 (1 / 3 : ℚ))
        ≤ max ((10 : Fin 256).val : Int) ((200 : Fin 256).val : Int) ∧
    0 ≤ truncToInt (blendChannel 10 200 (1 / 3 : ℚ)) ∧
    truncToInt (blendChannel 10 200 (1 / 3 : ℚ)) ≤ 255 ∧
    ((toUInt8 (blendChannel 10 200 (1 / 3 : ℚ))).val : Int)
      = truncToInt (blendChannel 10 200 (1 / 3 : ℚ))) :=
  ⟨by norm_num, by norm_num, blend_channel_bounds 10 200 (1 / 3 : ℚ) (by norm_num) (by norm_num)⟩

/-! ## Theorems: empty text and the frame of the draw operations -/

section DrawFrame

variable {K : Type} [LinearOrderedField K] [FloorRing K]

theorem draw_submits_once (P : FontProvider) (atlas : Nat → AtlasRegion) (s : State) (f : Nat)
    (hf : s.font = some f) (rect : Rect) (color : Color) :
    (draw P atlas s rect color).2.filter Event.isSubmit
      = [Event.addTexturedCoordsBuffer (P.getTexture f (atlas f))
          (draw P atlas s rect color).1.coordsBuffer color] := by
  simp only [draw, hf, drawAtlasCheck, drawRefill]
  split <;> split <;> simp [Event.isSubmit]

/-- C11: with a font set and an empty text, `drawWithHighlight` returns the state unchanged in
every field with an empty trace (nothing submitted), for all arguments; `draw(rect, color)` in
the same state proceeds and submits exactly one buffer to the draw pool: the font's texture,
the vertex buffer and `color`. -/
theorem empty_text_draws (cosf : K → K) (P : FontProvider) (atlas : Nat → AtlasRegion)
    (s : State) (f : Nat) (hf : s.font = some f) (ht : s.text = "") (rect : Rect)
    (color baseColor highlightColor : Color) (highlightPos highlightWidth : K) :
    drawWithHighlight cosf P atlas s rect baseColor highlightColor highlightPos highlightWidth
      = (s, []) ∧
    (draw P atlas s rect color).2.filter Event.isSubmit
      = [Event.addTexturedCoordsBuffer (P.getTexture f (atlas f))
          (draw P atlas s rect color).1.coordsBuffer color] := by
  refine ⟨?_, draw_submits_once P atlas s f hf rect color⟩
  have h0 : s.text.utf8ByteSize = 0 := by rw [ht]; rfl
  simp [drawWithHighlight, hf, h0]

/-- C15: `draw` changes no field besides the cached atlas region, the cached rectangle and the
vertex buffer (text, font, alignment, size and glyph positions stay); `drawWithHighlight`
changes no field besides the cached atlas region, the cached rectangle and the glyph positions
(text, font, alignment, size and the vertex buffer stay). -/
theorem draws_touch_only_cache (cosf : K → K) (P : FontProvider) (atlas : Nat → AtlasRegion)
    (s : State) (rect : Rect) (color baseColor highlightColor : Color)
    (highlightPos highlightWidth : K) :
    (draw P atlas s rect color).1
      = { s with
          atlasRegion := (draw P atlas s rect color).1.atlasRegion
          textScreenCoords := (draw P atlas s rect color).1.textScreenCoords
          coordsBuffer := (draw P atlas s rect color).1.coordsBuffer } ∧
    (drawWithHighlight cosf P atlas s rect baseColor highlightColor highlightPos
        highlightWidth).1
      = { s with
          atlasRegion := (drawWithHighlight cosf P atlas s rect baseColor highlightColor
            highlightPos highlightWidth).1.atlasRegion
          textScreenCoords := (drawWithHighlight cosf P atlas s rect baseColor highlightColor
            highlightPos highlightWidth).1.textScreenCoords
          glyphsPositions := (drawWithHighlight cosf P atlas s rect baseColor highlightColor
            highlightPos highlightWidth).1.glyphsPositions } := by
  constructor
  · unfold draw
    split
    · rfl
    · simp only [drawAtlasCheck, drawRefill]
      split <;> split <;> rfl
  · rw [drawWithHighlight_state]
    split
    · rfl
    · split
      · rfl
      · simp only [highlightAtlasCheck, highlightLayout]
        split <;> split <;> rfl

end DrawFrame

/-- Witness of `empty_text_draws`: font `1` set on a new object, whose text is empty. -/
theorem empty_text_draws_witness :
    (setFont probeProvider new (some 1)).1.font = some 1 ∧
    (setFont probeProvider new (some 1)).1.text = "" ∧
    drawWithHighlight cosApprox probeProvider atlasA (setFont probeProvider new (some 1)).1
        rectA black white (0 : ℚ) 1
      = ((setFont probeProvider new (some 1)).1, []) ∧
    (draw probeProvider atlasA (setFont probeProvider new (some 1)).1 rectA black).2.filter
        Event.isSubmit
      = [Event.addTexturedCoordsBuffer (probeProvider.getTexture 1 (atlasA 1))
          (draw probeProvider atlasA (setFont probeProvider new (some 1)).1 rectA
            black).1.coordsBuffer black] :=
  ⟨by decide, by decide,
    empty_text_draws cosApprox probeProvider atlasA (setFont probeProvider new (some 1)).1 1
      (by decide) (by decide) rectA black black white 0 1⟩

/-! ## Theorems: normalisation of the highlight position -/

section Normalisation

variable {K : Type} [LinearOrderedField K]

theorem wrapBelow_shift [FloorRing K] (textLen : Nat) (hlen : 0 < textLen) (x : K) :
    ∃ k : Int, wrapBelow textLen hlen x = x + (k : K) * (textLen : K) := by
  refine wrapBelow.induct textLen hlen
    (fun y => ∃ k : Int, wrapBelow textLen hlen y = y + (k : K) * (textLen : K)) ?_ ?_ x
  · intro y hy ih
    obtain ⟨k, hk⟩ := ih
    refine ⟨k + 1, ?_⟩
    rw [wrapBelow, if_pos hy, hk]
    push_cast
    ring
  · intro y hy
    refine ⟨0, ?_⟩
    rw [wrapBelow, if_neg hy]
    simp

theorem wrapAbove_shift [FloorRing K] (textLen : Nat) (hlen : 0 < textLen) (x : K) :
    ∃ k : Int, wrapAbove textLen hlen x = x + (k : K) * (textLen : K) := by
  refine wrapAbove.induct textLen hlen
    (fun y => ∃ k : Int, wrapAbove textLen hlen y = y + (k : K) * (textLen : K)) ?_ ?_ x
  · intro y hy ih
    obtain ⟨k, hk⟩ := ih
    refine ⟨k - 1, ?_⟩
    rw [wrapAbove, if_pos hy, hk]
    push_cast
    ring
  · intro y hy
    refine ⟨0, ?_⟩
    rw [wrapAbove, if_neg hy]
    simp

theorem wrapHighlightPos_shift [FloorRing K] (textLen : Nat) (hlen : 0 < textLen) (x : K) :
    ∃ k : Int, wrapHighlightPos textLen hlen x = x + (k : K) * (textLen : K) := by
  obtain ⟨a, ha⟩ := wrapBelow_shift textLen hlen x
  obtain ⟨b, hb⟩ := wrapAbove_shift textLen hlen (wrapBelow textLen hlen x)
  refine ⟨a + b, ?_⟩
  rw [wrapHighlightPos, hb, ha]
  push_cast
  ring

/-- The two loops compute the remainder of the position modulo the text length. -/
theorem wrapHighlightPos_eq [FloorRing K] (textLen : Nat) (hlen : 0 < textLen) (x : K) :
    wrapHighlightPos textLen hlen x = x - ((⌊x / (textLen : K)⌋ : Int) : K) * (textLen : K) := by
  have hn : (0 : K) < (textLen : K) := by exact_mod_cast hlen
  obtain ⟨k, hk⟩ := wrapHighlightPos_shift textLen hlen x
  obtain ⟨h0, h1⟩ := wrapHighlightPos_range textLen hlen x
  rw [hk] at h0 h1
  have hfloor : ⌊x / (textLen : K)⌋ = -k := by
    rw [Int.floor_eq_iff]
    push_cast
    constructor
    · rw [le_div_iff₀ hn]
      linarith
    · rw [div_lt_iff₀ hn]
      linarith
  rw [hk, hfloor]
  push_cast
  ring

theorem wrapHighlightPos_add_mul [FloorRing K] (textLen : Nat) (hlen : 0 < textLen) (x : K)
    (k : Int) :
    wrapHighlightPos textLen hlen (x + (k : K) * (textLen : K))
      = wrapHighlightPos textLen hlen x := by
  have hn : (textLen : K) ≠ 0 := by
    have : (0 : K) < (textLen : K) := by exact_mod_cast hlen
    exact ne_of_gt this
  rw [wrapHighlightPos_eq, wrapHighlightPos_eq]
  have : (x + (k : K) * (textLen : K)) / (textLen : K) = x / (textLen : K) + (k : K) := by
    field_simp
  rw [this, Int.floor_add_int]
  push_cast
  ring

/-- C17: for a text of `textLen ≥ 1` glyphs, every highlight position, every integer `k`, every
width and all colours, `textColors` for `highlightPos + k * textLen` is `textColors` for
`highlightPos`: the colour of every glyph depends on the position only modulo `textLen`. -/
theorem highlight_periodic [FloorRing K] (cosf : K → K) (textLen : Nat) (hlen : 0 < textLen)
    (highlightPos highlightWidth : K) (k : Int) (baseColor highlightColor : Color) :
    highlightColors cosf textLen hlen (highlightPos + (k : K) * (textLen : K)) highlightWidth
        baseColor highlightColor
      = highlightColors cosf textLen hlen highlightPos highlightWidth baseColor
          highlightColor := by
  simp only [highlightColors, wrapHighlightPos_add_mul]

end Normalisation

/-- Witness of `highlight_periodic`: ten glyphs, position `5/2` shifted by `-3` turns. -/
theorem highlight_periodic_witness :
    0 < 10 ∧
    highlightColors cosApprox 10 (by decide) ((5 / 2 : ℚ) + ((-3 : Int) : ℚ) * ((10 : Nat) : ℚ))
        3 black white
      = highlightColors cosApprox 10 (by decide) (5 / 2 : ℚ) 3 black white :=
  ⟨by decide, highlight_periodic cosApprox 10 (by decide) (5 / 2 : ℚ) 3 (-3) black white⟩

section NormalisationExact

variable {K : Type} [LinearOrderedField K]

/-- Over exact arithmetic the two loops end for every position and leave a value in
`[0, textLen)` that differs from the position by an integer multiple of `textLen`; a position
already in `[0, textLen)` is returned as it is. -/
theorem wrapHighlightPos_normalises [FloorRing K] (textLen : Nat) (hlen : 0 < textLen)
    (x : K) :
    0 ≤ wrapHighlightPos textLen hlen x ∧ wrapHighlightPos textLen hlen x < (textLen : K) ∧
    (∃ k : Int, wrapHighlightPos textLen hlen x = x + (k : K) * (textLen : K)) ∧
    (0 ≤ x → x < (textLen : K) → wrapHighlightPos textLen hlen x = x) :=
  ⟨(wrapHighlightPos_range textLen hlen x).1, (wrapHighlightPos_range textLen hlen x).2,
    wrapHighlightPos_shift textLen hlen x, wrapHighlightPos_of_range textLen hlen x⟩

end NormalisationExact

/-! ## Theorems: binary32 rounding -/

theorem roundHalfEven_intCast (z : Int) : roundHalfEven (z : ℚ) = z := by
  simp [roundHalfEven]

theorem roundBinary32_two_pow_100 : roundBinary32 ((2 : ℚ) ^ 100) = (2 : ℚ) ^ 100 := by
  have hpos : (0 : ℚ) < (2 : ℚ) ^ 100 := by norm_num
  have hlog : Int.log 2 |(2 : ℚ) ^ 100| = 100 := by
    rw [abs_of_pos hpos]
    have h1 : (100 : Int) ≤ Int.log 2 ((2 : ℚ) ^ 100) :=
      (Int.zpow_le_iff_le_log (by norm_num) hpos).mp (by norm_num)
    have h2 : Int.log 2 ((2 : ℚ) ^ 100) < (101 : Int) :=
      (Int.lt_zpow_iff_log_lt (by norm_num) hpos).mp (by norm_num)
    omega
  have hne : ((2 : ℚ) ^ 100) ≠ 0 := ne_of_gt hpos
  simp only [roundBinary32, hne, if_false, hlog]
  have hq : (2 : ℚ) ^ 100 / (2 : ℚ) ^ ((100 : Int) - 23) = (((2 : Int) ^ 23 : Int) : ℚ) := by
    norm_num
  rw [hq, roundHalfEven_intCast]
  norm_num

theorem roundBinary32_two_pow_100_sub_one :
    roundBinary32 ((2 : ℚ) ^ 100 - 1) = (2 : ℚ) ^ 100 := by
  have hpos : (0 : ℚ) < (2 : ℚ) ^ 100 - 1 := by norm_num
  have hlog : Int.log 2 |(2 : ℚ) ^ 100 - 1| = 99 := by
    rw [abs_of_pos hpos]
    have h1 : (99 : Int) ≤ Int.log 2 ((2 : ℚ) ^ 100 - 1) :=
      (Int.zpow_le_iff_le_log (by norm_num) hpos).mp (by norm_num)
    have h2 : Int.log 2 ((2 : ℚ) ^ 100 - 1) < (100 : Int) :=
      (Int.lt_zpow_iff_log_lt (by norm_num) hpos).mp (by norm_num)
    omega
  have hne : ((2 : ℚ) ^ 100 - 1) ≠ 0 := ne_of_gt hpos
  simp only [roundBinary32, hne, if_false, hlog]
  have hfloor : ⌊((2 : ℚ) ^ 100 - 1) / (2 : ℚ) ^ ((99 : Int) - 23)⌋ = 2 ^ 24 - 1 := by
    rw [Int.floor_eq_iff]
    constructor <;> norm_num
  have hround : roundHalfEven (((2 : ℚ) ^ 100 - 1) / (2 : ℚ) ^ ((99 : Int) - 23)) = 2 ^ 24 := by
    have hfrac : ¬ ((2 : ℚ) ^ 100 - 1) / (2 : ℚ) ^ ((99 : Int) - 23)
        - (((2 ^ 24 - 1 : Int)) : ℚ) < 1 / 2 := by
      norm_num
    have hfrac2 : 1 / 2 < ((2 : ℚ) ^ 100 - 1) / (2 : ℚ) ^ ((99 : Int) - 23)
        - (((2 ^ 24 - 1 : Int)) : ℚ) := by
      norm_num
    simp only [roundHalfEven, hfloor, hfrac, hfrac2, if_false, if_true]
    norm_num
  rw [hround]
  norm_num

theorem roundBinary32_zero : roundBinary32 0 = 0 := by
  simp [roundBinary32]

/-- A rational that is an integer multiple of the spacing at its own exponent is a `float`
value. -/
theorem roundBinary32_of_multiple (x : ℚ) (m : Int)
    (hm : x / (2 : ℚ) ^ (Int.log 2 |x| - 23) = (m : ℚ)) : roundBinary32 x = x := by
  by_cases hx : x = 0
  · rw [hx, roundBinary32_zero]
  · have hpow : ((2 : ℚ) ^ (Int.log 2 |x| - 23)) ≠ 0 := zpow_ne_zero _ (by norm_num)
    simp only [roundBinary32, hx, if_false, hm, roundHalfEven_intCast]
    rw [← hm]
    field_simp

/-- Every integer of magnitude at most `2 ^ 24` is a `float` value. -/
theorem roundBinary32_intCast (z : Int) (hz : |z| ≤ 2 ^ 24) : roundBinary32 (z : ℚ) = z := by
  by_cases h0 : z = 0
  · rw [h0, Int.cast_zero, roundBinary32_zero]
  · have habs : (0 : ℚ) < |(z : ℚ)| := abs_pos.mpr (by exact_mod_cast h0)
    have hone : (1 : ℚ) ≤ |(z : ℚ)| := by
      have : (1 : Int) ≤ |z| := Int.one_le_abs h0
      exact_mod_cast this
    have hle : |(z : ℚ)| ≤ 2 ^ 24 := by exact_mod_cast hz
    have e0 : (0 : Int) ≤ Int.log 2 |(z : ℚ)| :=
      (Int.zpow_le_iff_le_log (by norm_num) habs).mp (by simpa using hone)
    have e25 : Int.log 2 |(z : ℚ)| < (25 : Int) :=
      (Int.lt_zpow_iff_log_lt (by norm_num) habs).mp
        (lt_of_le_of_lt hle (by norm_num))
    have hlow : ((2 : Nat) : ℚ) ^ Int.log 2 |(z : ℚ)| ≤ |(z : ℚ)| :=
      Int.zpow_log_le_self (by norm_num) habs
    have e24 : Int.log 2 |(z : ℚ)| ≤ (24 : Int) := by omega
    rcases lt_or_eq_of_le e24 with hlt | heq
    · -- exponent at most 23: the spacing is `2 ^ (-k)`
      obtain ⟨k, hk⟩ : ∃ k : Nat, Int.log 2 |(z : ℚ)| - 23 = -(k : Int) :=
        ⟨(23 - Int.log 2 |(z : ℚ)|).toNat, by omega⟩
      apply roundBinary32_of_multiple (z : ℚ) (z * 2 ^ k)
      rw [hk, zpow_neg, zpow_natCast]
      push_cast
      field_simp
    · -- exponent 24: the magnitude is exactly `2 ^ 24`
      rw [heq] at hlow
      have hlow2 : (2 : ℚ) ^ 24 ≤ |(z : ℚ)| := by
        have h := hlow
        norm_num at h
        exact h
      have habs24 : |(z : ℚ)| = 2 ^ 24 := le_antisymm hle hlow2
      have hz24 : |z| = 2 ^ 24 := by exact_mod_cast habs24
      have h2 : (2 : Int) ∣ z := by
        rcases abs_choice z with h | h
        · rw [h] at hz24; rw [hz24]; norm_num
        · have : z = -(2 ^ 24) := by omega
          rw [this]; norm_num
      obtain ⟨m, hm⟩ := h2
      apply roundBinary32_of_multiple (z : ℚ) m
      rw [heq, hm]
      push_cast
      norm_num

theorem floatOfInt_of_le (z : Int) (hz : |z| ≤ 2 ^ 24) : floatOfInt z = z :=
  roundBinary32_intCast z hz

theorem floatOfInt_natCast (n : Nat) (hn : n ≤ 2 ^ 24) : floatOfInt (n : Int) = (n : ℚ) := by
  rw [floatOfInt_of_le (n : Int) (by rw [abs_of_nonneg (Int.natCast_nonneg n)]; exact_mod_cast hn)]
  simp

theorem roundHalfEven_of_lt_half (q : ℚ) (f : Int) (h1 : (f : ℚ) ≤ q) (h2 : q < (f : ℚ) + 1 / 2) :
    roundHalfEven q = f := by
  have hf : ⌊q⌋ = f := Int.floor_eq_iff.mpr ⟨h1, by linarith⟩
  have h3 : q - (f : ℚ) < 1 / 2 := by linarith
  simp only [roundHalfEven, hf, h3, if_true]

theorem roundHalfEven_of_tie_even (f : Int) (hf : f % 2 = 0) :
    roundHalfEven ((f : ℚ) + 1 / 2) = f := by
  have hfl : ⌊(f : ℚ) + 1 / 2⌋ = f := Int.floor_eq_iff.mpr ⟨by linarith, by linarith⟩
  have h1 : ¬ ((f : ℚ) + 1 / 2 - (f : ℚ) < 1 / 2) := by norm_num
  have h2 : ¬ (1 / 2 < (f : ℚ) + 1 / 2 - (f : ℚ)) := by norm_num
  simp only [roundHalfEven, hfl, h1, h2, hf, if_false, if_true]

/-- Evaluation of `roundBinary32` at a value whose binary exponent is `e`. -/
theorem roundBinary32_eval (x : ℚ) (e m : Int) (h1 : (2 : ℚ) ^ e ≤ |x|)
    (h2 : |x| < (2 : ℚ) ^ (e + 1)) (hm : roundHalfEven (x / (2 : ℚ) ^ (e - 23)) = m) :
    roundBinary32 x = (m : ℚ) * (2 : ℚ) ^ (e - 23) := by
  have hpos : (0 : ℚ) < |x| := lt_of_lt_of_le (zpow_pos (by norm_num) e) h1
  have hx : x ≠ 0 := abs_pos.mp hpos
  have hlog : Int.log 2 |x| = e := by
    have k1 : e ≤ Int.log 2 |x| :=
      (Int.zpow_le_iff_le_log (by norm_num) hpos).mp (by simpa using h1)
    have k2 : Int.log 2 |x| < e + 1 :=
      (Int.lt_zpow_iff_log_lt (by norm_num) hpos).mp (by simpa using h2)
    omega
  simp only [roundBinary32, hx, if_false, hlog, hm]

theorem floatOfInt_16777226 : floatOfInt 16777226 = 16777226 := by
  have h := roundBinary32_eval 16777226 24 8388613 (by norm_num [abs_of_pos])
    (by norm_num [abs_of_pos])
    (by
      have : (16777226 : ℚ) / (2 : ℚ) ^ ((24 : Int) - 23) = ((8388613 : Int) : ℚ) := by norm_num
      rw [this, roundHalfEven_intCast])
  rw [floatOfInt]
  push_cast
  rw [h]
  norm_num

theorem floatOfInt_16777217 : floatOfInt 16777217 = 16777216 := by
  have h := roundBinary32_eval 16777217 24 8388608 (by norm_num [abs_of_pos])
    (by norm_num [abs_of_pos])
    (by
      have : (16777217 : ℚ) / (2 : ℚ) ^ ((24 : Int) - 23) = ((8388608 : Int) : ℚ) + 1 / 2 := by
        norm_num
      rw [this]
      exact roundHalfEven_of_tie_even 8388608 (by decide))
  rw [floatOfInt]
  push_cast
  rw [h]
  norm_num

theorem roundBinary32_neg_half : roundBinary32 (-(1 / 2)) = -(1 / 2) := by
  have h := roundBinary32_eval (-(1 / 2)) (-1) (-8388608)
    (by rw [abs_neg, abs_of_pos (by norm_num)]; norm_num)
    (by rw [abs_neg, abs_of_pos (by norm_num)]; norm_num)
    (by
      have : (-(1 / 2) : ℚ) / (2 : ℚ) ^ ((-1 : Int) - 23) = ((-8388608 : Int) : ℚ) := by
        norm_num
      rw [this, roundHalfEven_intCast])
  rw [h]
  norm_num

theorem roundBinary32_half : roundBinary32 (1 / 2) = 1 / 2 := by
  have h := roundBinary32_eval (1 / 2) (-1) 8388608
    (by rw [abs_of_pos (by norm_num)]; norm_num)
    (by rw [abs_of_pos (by norm_num)]; norm_num)
    (by
      have : (1 / 2 : ℚ) / (2 : ℚ) ^ ((-1 : Int) - 23) = ((8388608 : Int) : ℚ) := by
        norm_num
      rw [this, roundHalfEven_intCast])
  rw [h]
  norm_num

/-! ## Theorems: the loops, the distance and the blend in `float` arithmetic -/

theorem wrapBelowBinary32_of_nonneg (fuel textLen : Nat) (x : ℚ) (hx : 0 ≤ x) :
    wrapBelowBinary32 (fuel + 1) textLen x = some x := by
  rw [wrapBelowBinary32, if_neg (not_lt.mpr hx)]

theorem wrapAboveBinary32_of_lt (fuel textLen : Nat) (x : ℚ)
    (hx : x < floatOfInt (textLen : Int)) :
    wrapAboveBinary32 (fuel + 1) textLen x = some x := by
  rw [wrapAboveBinary32, if_neg (not_le.mpr hx)]

theorem wrapHighlightPosBinary32_of_range (fuel textLen : Nat) (h24 : textLen ≤ 2 ^ 24)
    (x : ℚ) (h0 : 0 ≤ x) (h1 : x < (textLen : ℚ)) :
    wrapHighlightPosBinary32 (fuel + 1) textLen x = some x := by
  rw [wrapHighlightPosBinary32, wrapBelowBinary32_of_nonneg fuel textLen x h0]
  exact wrapAboveBinary32_of_lt fuel textLen x (by rw [floatOfInt_natCast textLen h24]; exact h1)

/-- With at most `2 ^ 24` glyphs and an integer position no larger than the text length, no
operation of lines 79-82 rounds: the `float` distance is the exact one. -/
theorem glyphDistBinary32_eq (textLen : Nat) (h24 : textLen ≤ 2 ^ 24) (p : Nat)
    (hp : p ≤ textLen) (i : Nat) (hi : i ≤ textLen) :
    glyphDistBinary32 textLen (p : ℚ) i = glyphDist textLen (p : ℚ) i := by
  have hi24 : i ≤ 2 ^ 24 := le_trans hi h24
  have hsub : roundBinary32 ((i : ℚ) - (p : ℚ)) = (i : ℚ) - (p : ℚ) := by
    have h := roundBinary32_intCast ((i : Int) - (p : Int)) (by rw [abs_le]; omega)
    push_cast at h
    exact h
  have hwrap : roundBinary32 ((textLen : ℚ) - |(i : ℚ) - (p : ℚ)|)
      = (textLen : ℚ) - |(i : ℚ) - (p : ℚ)| := by
    have h := roundBinary32_intCast ((textLen : Int) - |(i : Int) - (p : Int)|)
      (by
        rw [abs_le]
        constructor <;> (rcases abs_cases ((i : Int) - (p : Int)) with h | h <;> omega))
    push_cast at h
    exact h
  simp only [glyphDistBinary32, glyphDist, floatOfInt_natCast i hi24,
    floatOfInt_natCast textLen h24, hsub, hwrap]

theorem highlightFactorBinary32_of_le (cosf : ℚ → ℚ) (dist w : ℚ) (h : w ≤ dist) :
    highlightFactorBinary32 cosf dist w = 0 := by
  rw [highlightFactorBinary32, if_neg (not_lt.mpr h)]

theorem highlightFactorBinary32_zero (cosf : ℚ → ℚ) (hcos : cosf 0 = 1) (w : ℚ) (hw : 0 < w) :
    highlightFactorBinary32 cosf 0 w = 1 := by
  have h2 : roundBinary32 (2 : ℚ) = 2 := by
    have h := roundBinary32_intCast 2 (by norm_num)
    push_cast at h
    exact h
  have h1 : roundBinary32 (1 : ℚ) = 1 := by
    have h := roundBinary32_intCast 1 (by norm_num)
    push_cast at h
    exact h
  rw [highlightFactorBinary32, if_pos hw, zero_div, roundBinary32_zero, zero_mul,
    roundBinary32_zero, hcos]
  norm_num [h2, h1]

theorem floatOfInt_channel (c : Fin 256) : floatOfInt (c.val : Int) = ((c.val : Int) : ℚ) :=
  floatOfInt_of_le _ (by rw [abs_le]; have := c.isLt; omega)

theorem floatOfInt_channel_diff (base highlight : Fin 256) :
    floatOfInt ((highlight.val : Int) - (base.val : Int))
      = (((highlight.val : Int) - (base.val : Int) : Int) : ℚ) :=
  floatOfInt_of_le _ (by rw [abs_le]; have := base.isLt; have := highlight.isLt; omega)

theorem blendChannelBinary32_zero (base highlight : Fin 256) :
    blendChannelBinary32 base highlight 0 = ((base.val : Int) : ℚ) := by
  rw [blendChannelBinary32, mul_zero, roundBinary32_zero, add_zero, floatOfInt_channel]
  exact roundBinary32_intCast _ (by rw [abs_le]; have := base.isLt; omega)

theorem blendChannelBinary32_one (base highlight : Fin 256) :
    blendChannelBinary32 base highlight 1 = ((highlight.val : Int) : ℚ) := by
  have hd := floatOfInt_channel_diff base highlight
  rw [floatOfInt] at hd
  rw [blendChannelBinary32, mul_one, floatOfInt_channel_diff, hd, floatOfInt_channel]
  have : ((base.val : Int) : ℚ) + (((highlight.val : Int) - (base.val : Int) : Int) : ℚ)
      = ((highlight.val : Int) : ℚ) := by
    push_cast
    ring
  rw [this]
  exact roundBinary32_intCast _ (by rw [abs_le]; have := highlight.isLt; omega)

theorem blendColorBinary32_zero (baseColor highlightColor : Color) :
    blendColorBinary32 baseColor highlightColor 0 = baseColor := by
  simp only [blendColorBinary32, blendChannelBinary32_zero, toUInt8_intCast]

theorem blendColorBinary32_one (baseColor highlightColor : Color) :
    blendColorBinary32 baseColor highlightColor 1 = highlightColor := by
  simp only [blendColorBinary32, blendChannelBinary32_one, toUInt8_intCast]

theorem floatOfInt_one : floatOfInt ((1 : Nat) : Int) = 1 := by
  have h := floatOfInt_natCast 1 (by norm_num)
  simpa using h

/-- First loop, text of length `1`: from `-m` with `m ≤ 2 ^ 24` every addition is exact and
the loop exits at `0` within `m + 1` tests. -/
theorem wrapBelowBinary32_one_neg (m : Nat) (hm : m ≤ 2 ^ 24) :
    ∀ fuel : Nat, m + 1 ≤ fuel → wrapBelowBinary32 fuel 1 (-(m : ℚ)) = some 0 := by
  induction m with
  | zero =>
    intro fuel hfuel
    obtain ⟨k, rfl⟩ : ∃ k, fuel = k + 1 := ⟨fuel - 1, by omega⟩
    have := wrapBelowBinary32_of_nonneg k 1 (0 : ℚ) (le_refl 0)
    simpa using this
  | succ n ih =>
    intro fuel hfuel
    obtain ⟨k, rfl⟩ : ∃ k, fuel = k + 1 := ⟨fuel - 1, by omega⟩
    have hneg : -((n + 1 : Nat) : ℚ) < 0 := by
      have : (0 : ℚ) < ((n + 1 : Nat) : ℚ) := by exact_mod_cast Nat.succ_pos n
      linarith
    have hstep : roundBinary32 (-((n + 1 : Nat) : ℚ) + 1) = -(n : ℚ) := by
      have h := roundBinary32_intCast (-(n : Int)) (by rw [abs_neg, abs_le]; omega)
      push_cast at h
      have hval : -((n + 1 : Nat) : ℚ) + 1 = -(n : ℚ) := by
        push_cast
        ring
      rw [hval]
      exact h
    rw [wrapBelowBinary32, if_pos hneg, floatOfInt_one, hstep]
    exact ih (by omega) k (by omega)

/-- Second loop, text of length `1`: from `m ≤ 2 ^ 24` every subtraction is exact and the
loop exits at `0` within `m + 1` tests. -/
theorem wrapAboveBinary32_one_nat (m : Nat) (hm : m ≤ 2 ^ 24) :
    ∀ fuel : Nat, m + 1 ≤ fuel → wrapAboveBinary32 fuel 1 (m : ℚ) = some 0 := by
  induction m with
  | zero =>
    intro fuel hfuel
    obtain ⟨k, rfl⟩ : ∃ k, fuel = k + 1 := ⟨fuel - 1, by omega⟩
    have := wrapAboveBinary32_of_lt k 1 (0 : ℚ) (by rw [floatOfInt_one]; norm_num)
    simpa using this
  | succ n ih =>
    intro fuel hfuel
    obtain ⟨k, rfl⟩ : ∃ k, fuel = k + 1 := ⟨fuel - 1, by omega⟩
    have hge : (1 : ℚ) ≤ ((n + 1 : Nat) : ℚ) := by
      exact_mod_cast Nat.succ_le_succ (Nat.zero_le n)
    have hstep : roundBinary32 (((n + 1 : Nat) : ℚ) - 1) = (n : ℚ) := by
      have h := roundBinary32_intCast (n : Int) (by rw [abs_le]; omega)
      push_cast at h
      have hval : ((n + 1 : Nat) : ℚ) - 1 = (n : ℚ) := by
        push_cast
        ring
      rw [hval]
      exact h
    rw [wrapAboveBinary32, floatOfInt_one, if_pos hge, hstep]
    exact ih (by omega) k (by omega)

/-- C13 (amended): in `float` arithmetic, for a text of length `1` and every integer-valued
`highlightPos` of magnitude at most `2 ^ 24`, the two loops exit (within `|highlightPos| + 1`
tests each) and leave `0`; the single glyph is then at distance `0` from the highlight
centre. -/
theorem length_one_integer_normalises_to_zero (z : Int) (hz : |z| ≤ 2 ^ 24) (fuel : Nat)
    (hfuel : z.natAbs + 1 ≤ fuel) :
    wrapHighlightPosBinary32 fuel 1 (z : ℚ) = some 0 ∧ glyphDistBinary32 1 0 0 = 0 := by
  have hz' : z.natAbs ≤ 2 ^ 24 := by
    have : (z.natAbs : Int) = |z| := Int.natCast_natAbs z
    omega
  constructor
  · rw [wrapHighlightPosBinary32]
    rcases le_or_lt 0 z with h0 | h0
    · obtain ⟨k, rfl⟩ : ∃ k, fuel = k + 1 := ⟨fuel - 1, by omega⟩
      have hcast : (z : ℚ) = ((z.natAbs : Nat) : ℚ) := by
        rw [← Int.cast_natCast, Int.natAbs_of_nonneg h0]
      rw [wrapBelowBinary32_of_nonneg k 1 (z : ℚ) (by exact_mod_cast h0), Option.some_bind,
        hcast]
      exact wrapAboveBinary32_one_nat z.natAbs hz' (k + 1) hfuel
    · have hcast : (z : ℚ) = -((z.natAbs : Nat) : ℚ) := by
        have : (z.natAbs : Int) = -z := by omega
        have h2 : z = -(z.natAbs : Int) := by omega
        exact_mod_cast h2
      rw [hcast, wrapBelowBinary32_one_neg z.natAbs hz' fuel hfuel, Option.some_bind]
      have := wrapAboveBinary32_one_nat 0 (by norm_num) fuel (by omega)
      simpa using this
  · have h := glyphDistBinary32_eq 1 (by norm_num) 0 (by norm_num) 0 (by norm_num)
    rw [Nat.cast_zero] at h
    rw [h]
    simp only [glyphDist]
    norm_num

/-- The loop of line 71 started at `2 ^ 100` with a text of length `1` has not exited after
any number of tests of its condition. -/
theorem wrapAboveBinary32_two_pow_100 (fuel : Nat) :
    wrapAboveBinary32 fuel 1 ((2 : ℚ) ^ 100) = none := by
  induction fuel with
  | zero => rfl
  | succ n ih =>
    have hle : (1 : ℚ) ≤ (2 : ℚ) ^ 100 := by norm_num
    rw [wrapAboveBinary32, floatOfInt_one, if_pos hle, roundBinary32_two_pow_100_sub_one]
    exact ih

theorem wrapHighlightPosBinary32_two_pow_100 (fuel : Nat) :
    wrapHighlightPosBinary32 fuel 1 ((2 : ℚ) ^ 100) = none := by
  cases fuel with
  | zero => rfl
  | succ k =>
    rw [wrapHighlightPosBinary32,
      wrapBelowBinary32_of_nonneg k 1 ((2 : ℚ) ^ 100) (by norm_num), Option.some_bind]
    exact wrapAboveBinary32_two_pow_100 (k + 1)

/-- C12 (evaluation at the failing input): `2 ^ 100` is a `float` value; with a text of length
`1` the subtraction `highlightPos -= textLen` at `highlightPos = 2 ^ 100` rounds back to
`2 ^ 100`, and the loop of line 71 started there has not exited after any number of tests of
its condition. -/
theorem wrap_loop_stuck_at_two_pow_100 :
    roundBinary32 ((2 : ℚ) ^ 100) = (2 : ℚ) ^ 100 ∧
    roundBinary32 ((2 : ℚ) ^ 100 - ((1 : Nat) : ℚ)) = (2 : ℚ) ^ 100 ∧
    ∀ fuel : Nat, wrapAboveBinary32 fuel 1 ((2 : ℚ) ^ 100) = none := by
  have hsub : roundBinary32 ((2 : ℚ) ^ 100 - ((1 : Nat) : ℚ)) = (2 : ℚ) ^ 100 := by
    rw [Nat.cast_one]
    exact roundBinary32_two_pow_100_sub_one
  exact ⟨roundBinary32_two_pow_100, hsub, wrapAboveBinary32_two_pow_100⟩

/-- C13 (as stated, refuted): for a text of length `1` and `highlightPos = 1/2` the two loops
leave `1/2`, not `0`, and the single glyph is at distance `1/2`; this is so over exact
arithmetic and in `float` arithmetic alike (no operation rounds). -/
theorem length_one_half_stays :
    wrapHighlightPos 1 Nat.one_pos (1 / 2 : ℚ) = 1 / 2 ∧
    glyphDist 1 (wrapHighlightPos 1 Nat.one_pos (1 / 2 : ℚ)) 0 = 1 / 2 ∧
    wrapHighlightPosBinary32 1 1 (1 / 2) = some (1 / 2) ∧
    glyphDistBinary32 1 (1 / 2) 0 = 1 / 2 := by
  have h : wrapHighlightPos 1 Nat.one_pos (1 / 2 : ℚ) = 1 / 2 :=
    wrapHighlightPos_of_range 1 Nat.one_pos (1 / 2 : ℚ) (by norm_num) (by norm_num)
  have habs : |(1 / 2 : ℚ)| = 1 / 2 := abs_of_pos (by norm_num)
  have h0 : floatOfInt ((0 : Nat) : Int) = 0 := by
    have := floatOfInt_natCast 0 (by norm_num)
    simpa using this
  refine ⟨h, ?_, ?_, ?_⟩
  · rw [h]
    norm_num [glyphDist, habs]
  · have := wrapHighlightPosBinary32_of_range 0 1 (by norm_num) (1 / 2) (by norm_num)
      (by norm_num)
    simpa using this
  · have hsub : roundBinary32 ((0 : ℚ) - 1 / 2) = -(1 / 2) := by
      rw [zero_sub]
      exact roundBinary32_neg_half
    have hwrap : roundBinary32 ((1 : ℚ) - 1 / 2) = 1 / 2 := by
      have : (1 : ℚ) - 1 / 2 = 1 / 2 := by norm_num
      rw [this]
      exact roundBinary32_half
    simp only [glyphDistBinary32, h0, floatOfInt_one, hsub, abs_neg, habs, hwrap, min_self]

/-- Witness of `length_one_integer_normalises_to_zero`: position `-3`, four tests per loop. -/
theorem length_one_integer_normalises_to_zero_witness :
    |(-3 : Int)| ≤ 2 ^ 24 ∧ (-3 : Int).natAbs + 1 ≤ 4 ∧
    wrapHighlightPosBinary32 4 1 (((-3 : Int)) : ℚ) = some 0 ∧ glyphDistBinary32 1 0 0 = 0 :=
  ⟨by decide, by decide, length_one_integer_normalises_to_zero (-3) (by decide) 4 (by decide)⟩

/-! ## Theorems: the highlight colours in `float` arithmetic -/

theorem highlightColorsBinary32_of_wrap (cosf : ℚ → ℚ) (fuel textLen : Nat) (pos p w : ℚ)
    (baseColor highlightColor : Color)
    (hwrap : wrapHighlightPosBinary32 fuel textLen pos = some p) :
    highlightColorsBinary32 cosf fuel textLen pos w baseColor highlightColor
      = some ((List.range textLen).map
          (glyphColorBinary32 cosf textLen p w baseColor highlightColor)) := by
  simp only [highlightColorsBinary32, hwrap, Option.map_some']

/-- C6 (amended): in `float` arithmetic, for a text of `textLen ≤ 2 ^ 24` glyphs, an integer
highlight position `p` with `0 ≤ p < textLen`, a width `> 0` and all colours (with
`cos 0 = 1`): the loops exit at their first test, the entry of `textColors` for glyph `p` is
`(p, highlightColor)`, and the entry for every glyph `i` whose circular distance
`min(|i - p|, textLen - |i - p|)` is at least the width is `(i, baseColor)`. -/
theorem highlight_centre_and_outside_binary32 (cosf : ℚ → ℚ) (hcos : cosf 0 = 1)
    (textLen : Nat) (h24 : textLen ≤ 2 ^ 24) (p : Nat) (hp : p < textLen) (w : ℚ) (hw : 0 < w)
    (baseColor highlightColor : Color) (fuel : Nat) :
    ∃ colors : List (Nat × Color),
      highlightColorsBinary32 cosf (fuel + 1) textLen (p : ℚ) w baseColor highlightColor
        = some colors ∧
      colors[p]? = some (p, highlightColor) ∧
      ∀ i : Nat, i < textLen →
        w ≤ min |(i : ℚ) - (p : ℚ)| ((textLen : ℚ) - |(i : ℚ) - (p : ℚ)|) →
        colors[i]? = some (i, baseColor) := by
  have hp' : ((p : Nat) : ℚ) < (textLen : ℚ) := by exact_mod_cast hp
  have hwrap := wrapHighlightPosBinary32_of_range fuel textLen h24 (p : ℚ) (Nat.cast_nonneg p) hp'
  refine ⟨_, highlightColorsBinary32_of_wrap cosf (fuel + 1) textLen _ _ w baseColor
    highlightColor hwrap, ?_, ?_⟩
  · rw [List.getElem?_map, List.getElem?_range hp, Option.map_some', glyphColorBinary32,
      glyphDistBinary32_eq textLen h24 p hp.le p hp.le, glyphDist_self,
      highlightFactorBinary32_zero cosf hcos w hw, blendColorBinary32_one]
  · intro i hi hd
    have hd' : w ≤ glyphDist textLen (p : ℚ) i := hd
    rw [List.getElem?_map, List.getElem?_range hi, Option.map_some', glyphColorBinary32,
      glyphDistBinary32_eq textLen h24 p hp.le i hi.le,
      highlightFactorBinary32_of_le cosf _ w hd', blendColorBinary32_zero]

/-- C7 (amended): in `float` arithmetic, for `textLen ≤ 2 ^ 24`, an integer wrapped position
`0 ≤ p < textLen` and a glyph `i < textLen`, the distance computed by lines 79-82 is the least
of `|i - p + k * textLen|` over the integers `k` (a lower bound that is attained); it lies in
`[0, textLen / 2]`; for `p = 0` glyph `textLen - i` is as far as glyph `i`; and for
`textLen = 10`, `p = 0`, glyphs `9` and `1` are both at distance `1`. -/
theorem glyphDistBinary32_circular (textLen : Nat) (h24 : textLen ≤ 2 ^ 24) (p : Nat)
    (hp : p < textLen) (i : Nat) (hi : i < textLen) :
    (∀ k : Int,
      glyphDistBinary32 textLen (p : ℚ) i ≤ |(i : ℚ) - (p : ℚ) + (k : ℚ) * (textLen : ℚ)|) ∧
    (∃ k : Int,
      glyphDistBinary32 textLen (p : ℚ) i = |(i : ℚ) - (p : ℚ) + (k : ℚ) * (textLen : ℚ)|) ∧
    0 ≤ glyphDistBinary32 textLen (p : ℚ) i ∧
    glyphDistBinary32 textLen (p : ℚ) i ≤ (textLen : ℚ) / 2 ∧
    glyphDistBinary32 textLen 0 (textLen - i) = glyphDistBinary32 textLen 0 i ∧
    glyphDistBinary32 10 0 9 = 1 ∧ glyphDistBinary32 10 0 1 = 1 := by
  have hp' : ((p : Nat) : ℚ) < (textLen : ℚ) := by exact_mod_cast hp
  obtain ⟨c1, c2, c3, c4, c5, c6, c7⟩ :=
    glyphDist_circular textLen (p : ℚ) (Nat.cast_nonneg p) hp' i hi
  have hzero : ∀ (n j : Nat), n ≤ 2 ^ 24 → j ≤ n →
      glyphDistBinary32 n 0 j = glyphDist n (0 : ℚ) j := by
    intro n j hn hj
    have h := glyphDistBinary32_eq n hn 0 (Nat.zero_le n) j hj
    rw [Nat.cast_zero] at h
    exact h
  rw [glyphDistBinary32_eq textLen h24 p hp.le i hi.le]
  refine ⟨c1, c2, c3, c4, ?_, ?_, ?_⟩
  · rw [hzero textLen (textLen - i) h24 (Nat.sub_le _ _), hzero textLen i h24 hi.le]
    exact c5
  · rw [hzero 10 9 (by norm_num) (by norm_num)]
    exact c6
  · rw [hzero 10 1 (by norm_num) (by norm_num)]
    exact c7

theorem roundBinary32_16777226 : roundBinary32 16777226 = 16777226 := by
  have h := floatOfInt_16777226
  rw [floatOfInt] at h
  push_cast at h
  exact h

/-- Glyph `2 ^ 24 + 1` of a text of `2 ^ 24 + 10` glyphs, position `2 ^ 24`: the index is
converted to the `float` `2 ^ 24`, so the computed distance is `0`. -/
theorem glyphDistBinary32_16777217 :
    glyphDistBinary32 16777226 ((16777216 : Nat) : ℚ) 16777217 = 0 := by
  have h1 : floatOfInt ((16777217 : Nat) : Int) = 16777216 := by
    have := floatOfInt_16777217
    simpa using this
  have h2 : floatOfInt ((16777226 : Nat) : Int) = 16777226 := by
    have := floatOfInt_16777226
    simpa using this
  simp only [glyphDistBinary32, h1, h2]
  norm_num [roundBinary32_zero, roundBinary32_16777226]

theorem glyphDist_16777217 : glyphDist 16777226 ((16777216 : Nat) : ℚ) 16777217 = 1 := by
  simp only [glyphDist]
  norm_num

/-- C6 (as stated, refuted): with a text of `2 ^ 24 + 10` glyphs, position `2 ^ 24` and width
`1`, glyph `2 ^ 24 + 1` is at circular distance `1`, not less than the width, and yet its
entry in `textColors` is the highlight colour `white`, not the base colour `black`: line 79
converts its index to the `float` `2 ^ 24`. -/
theorem highlight_neighbour_beyond_two_pow_24 :
    16777216 < 16777226 ∧ (0 : ℚ) < 1 ∧
    (1 : ℚ) ≤ min |((16777217 : Nat) : ℚ) - ((16777216 : Nat) : ℚ)|
      (((16777226 : Nat) : ℚ) - |((16777217 : Nat) : ℚ) - ((16777216 : Nat) : ℚ)|) ∧
    white ≠ black ∧
    ∃ colors : List (Nat × Color),
      highlightColorsBinary32 cosApprox 1 16777226 ((16777216 : Nat) : ℚ) 1 black white
        = some colors ∧
      colors[16777217]? = some (16777217, white) := by
  have h2 : floatOfInt ((16777226 : Nat) : Int) = 16777226 := by
    have := floatOfInt_16777226
    simpa using this
  have hwrap : wrapHighlightPosBinary32 1 16777226 ((16777216 : Nat) : ℚ)
      = some ((16777216 : Nat) : ℚ) := by
    rw [wrapHighlightPosBinary32, wrapBelowBinary32_of_nonneg 0 _ _ (by norm_num),
      Option.some_bind]
    exact wrapAboveBinary32_of_lt 0 _ _ (by rw [h2]; norm_num)
  have hdist : (1 : ℚ) ≤ glyphDist 16777226 ((16777216 : Nat) : ℚ) 16777217 := by
    rw [glyphDist_16777217]
  refine ⟨by norm_num, by norm_num, hdist, by decide, _,
    highlightColorsBinary32_of_wrap cosApprox 1 16777226 _ _ 1 black white hwrap, ?_⟩
  rw [List.getElem?_map, List.getElem?_range (by norm_num), Option.map_some',
    glyphColorBinary32, glyphDistBinary32_16777217,
    highlightFactorBinary32_zero cosApprox (by norm_num [cosApprox]) 1 (by norm_num),
    blendColorBinary32_one]

/-- The `float` nearest to `0.1`. -/
theorem roundBinary32_tenth :
    roundBinary32 (13421773 / 134217728) = 13421773 / 134217728 := by
  have h := roundBinary32_eval (13421773 / 134217728) (-4) 13421773
    (by rw [abs_of_pos (by norm_num)]; norm_num)
    (by rw [abs_of_pos (by norm_num)]; norm_num)
    (by
      have : (13421773 / 134217728 : ℚ) / (2 : ℚ) ^ ((-4 : Int) - 23)
          = ((13421773 : Int) : ℚ) := by norm_num
      rw [this, roundHalfEven_intCast])
  rw [h]
  norm_num

theorem glyphDistBinary32_tenth :
    glyphDistBinary32 10 (13421773 / 134217728) 9 = 576717 / 524288 := by
  have h9 : floatOfInt ((9 : Nat) : Int) = 9 := by
    have := floatOfInt_natCast 9 (by norm_num)
    simpa using this
  have h10 : floatOfInt ((10 : Nat) : Int) = 10 := by
    have := floatOfInt_natCast 10 (by norm_num)
    simpa using this
  have hsub : roundBinary32 ((9 : ℚ) - 13421773 / 134217728) = 4666163 / 524288 := by
    have h := roundBinary32_eval ((9 : ℚ) - 13421773 / 134217728) 3 9332326
      (by rw [abs_of_pos (by norm_num)]; norm_num)
      (by rw [abs_of_pos (by norm_num)]; norm_num)
      (roundHalfEven_of_lt_half _ 9332326 (by norm_num) (by norm_num))
    rw [h]
    norm_num
  have hwrap : roundBinary32 ((10 : ℚ) - 4666163 / 524288) = 576717 / 524288 := by
    have h := roundBinary32_eval ((10 : ℚ) - 4666163 / 524288) 0 9227472
      (by rw [abs_of_pos (by norm_num)]; norm_num)
      (by rw [abs_of_pos (by norm_num)]; norm_num)
      (by
        have : ((10 : ℚ) - 4666163 / 524288) / (2 : ℚ) ^ ((0 : Int) - 23)
            = ((9227472 : Int) : ℚ) := by norm_num
        rw [this, roundHalfEven_intCast])
    rw [h]
    norm_num
  have habs : |(4666163 / 524288 : ℚ)| = 4666163 / 524288 := abs_of_pos (by norm_num)
  simp only [glyphDistBinary32, h9, h10, hsub, habs, hwrap]
  norm_num

/-- C7 (as stated, refuted): with ten glyphs and the wrapped position `0.1f`, lines 79-82
give glyph `9` the distance `576717/524288`, which is larger than `|9 - p - 10|`, so it is
not the least of `|i - p + k * n|`; and with `2 ^ 24 + 10` glyphs and position `2 ^ 24` they
give glyph `2 ^ 24 + 1` the distance `0`, which is smaller than `|i - p + k * n|` for every
integer `k`. -/
theorem glyphDistBinary32_not_circular :
    roundBinary32 (13421773 / 134217728) = 13421773 / 134217728 ∧
    (0 : ℚ) ≤ 13421773 / 134217728 ∧ (13421773 / 134217728 : ℚ) < ((10 : Nat) : ℚ) ∧
    |((9 : Nat) : ℚ) - 13421773 / 134217728 + ((-1 : Int) : ℚ) * ((10 : Nat) : ℚ)|
      < glyphDistBinary32 10 (13421773 / 134217728) 9 ∧
    glyphDistBinary32 16777226 ((16777216 : Nat) : ℚ) 16777217 = 0 ∧
    ∀ k : Int, glyphDistBinary32 16777226 ((16777216 : Nat) : ℚ) 16777217
      < |((16777217 : Nat) : ℚ) - ((16777216 : Nat) : ℚ) + (k : ℚ) * ((16777226 : Nat) : ℚ)| := by
  refine ⟨roundBinary32_tenth, by norm_num, by norm_num, ?_, glyphDistBinary32_16777217, ?_⟩
  swap
  · intro k
    rw [glyphDistBinary32_16777217, abs_pos]
    have hne : (1 + k * 16777226 : Int) ≠ 0 := by omega
    have hcast : ((16777217 : Nat) : ℚ) - ((16777216 : Nat) : ℚ)
        + (k : ℚ) * ((16777226 : Nat) : ℚ) = ((1 + k * 16777226 : Int) : ℚ) := by
      push_cast
      ring
    rw [hcast]
    exact_mod_cast hne
  rw [glyphDistBinary32_tenth]
  have : ((9 : Nat) : ℚ) - 13421773 / 134217728 + ((-1 : Int) : ℚ) * ((10 : Nat) : ℚ)
      = -(147639501 / 134217728) := by norm_num
  rw [this, abs_neg, abs_of_pos (by norm_num)]
  norm_num

/-- Witness of `highlight_centre_and_outside_binary32`: the text `"AB"` with base
`(0, 0, 0, 255)`, highlight `(255, 255, 255, 255)`, position `0` and width `1` gives glyph `0`
the highlight colour and glyph `1` the base colour; and ten glyphs with position `5` and width
`3` give glyph `5` the highlight colour and glyph `8` (distance `3`) the base colour. -/
theorem highlight_centre_and_outside_binary32_witness :
    cosApprox 0 = 1 ∧ "AB".utf8ByteSize ≤ 2 ^ 24 ∧ 0 < "AB".utf8ByteSize ∧ (0 : ℚ) < 1 ∧
    10 ≤ 2 ^ 24 ∧ 5 < 10 ∧ (0 : ℚ) < 3 ∧
    (1 : ℚ) ≤ min |((1 : Nat) : ℚ) - ((0 : Nat) : ℚ)|
      (("AB".utf8ByteSize : ℚ) - |((1 : Nat) : ℚ) - ((0 : Nat) : ℚ)|) ∧
    (3 : ℚ) ≤ min |((8 : Nat) : ℚ) - ((5 : Nat) : ℚ)|
      (((10 : Nat) : ℚ) - |((8 : Nat) : ℚ) - ((5 : Nat) : ℚ)|) ∧
    (∃ colors : List (Nat × Color),
      highlightColorsBinary32 cosApprox (0 + 1) "AB".utf8ByteSize ((0 : Nat) : ℚ) 1 black white
        = some colors ∧
      colors[0]? = some (0, white) ∧ colors[1]? = some (1, black)) ∧
    (∃ colors : List (Nat × Color),
      highlightColorsBinary32 cosApprox (0 + 1) 10 ((5 : Nat) : ℚ) 3 black white
        = some colors ∧
      colors[5]? = some (5, white) ∧ colors[8]? = some (8, black)) :=
  have hcos : cosApprox 0 = 1 := by norm_num [cosApprox]
  have hAB : "AB".utf8ByteSize = 2 := by decide
  have hd1 : (1 : ℚ) ≤ min |((1 : Nat) : ℚ) - ((0 : Nat) : ℚ)|
      (("AB".utf8ByteSize : ℚ) - |((1 : Nat) : ℚ) - ((0 : Nat) : ℚ)|) := by
    rw [hAB]; norm_num
  have hd2 : (3 : ℚ) ≤ min |((8 : Nat) : ℚ) - ((5 : Nat) : ℚ)|
      (((10 : Nat) : ℚ) - |((8 : Nat) : ℚ) - ((5 : Nat) : ℚ)|) := by
    norm_num
  ⟨hcos, by decide, by decide, by norm_num, by norm_num, by decide, by norm_num, hd1, hd2,
    (highlight_centre_and_outside_binary32 cosApprox hcos "AB".utf8ByteSize (by decide) 0
      (by decide) 1 (by norm_num) black white 0).imp
        fun _ h => ⟨h.1, h.2.1, h.2.2 1 (by decide) hd1⟩,
    (highlight_centre_and_outside_binary32 cosApprox hcos 10 (by norm_num) 5 (by decide) 3
      (by norm_num) black white 0).imp
        fun _ h => ⟨h.1, h.2.1, h.2.2 8 (by decide) hd2⟩⟩

/-- Witness of `glyphDistBinary32_circular`: ten glyphs, position `0`, glyph `1`. -/
theorem glyphDistBinary32_circular_witness :
    10 ≤ 2 ^ 24 ∧ 0 < 10 ∧ 1 < 10 ∧
    ((∀ k : Int, glyphDistBinary32 10 ((0 : Nat) : ℚ) 1
        ≤ |((1 : Nat) : ℚ) - ((0 : Nat) : ℚ) + (k : ℚ) * ((10 : Nat) : ℚ)|) ∧
    (∃ k : Int, glyphDistBinary32 10 ((0 : Nat) : ℚ) 1
        = |((1 : Nat) : ℚ) - ((0 : Nat) : ℚ) + (k : ℚ) * ((10 : Nat) : ℚ)|) ∧
    0 ≤ glyphDistBinary32 10 ((0 : Nat) : ℚ) 1 ∧
    glyphDistBinary32 10 ((0 : Nat) : ℚ) 1 ≤ ((10 : Nat) : ℚ) / 2 ∧
    glyphDistBinary32 10 0 (10 - 1) = glyphDistBinary32 10 0 1 ∧
    glyphDistBinary32 10 0 9 = 1 ∧ glyphDistBinary32 10 0 1 = 1) :=
  ⟨by norm_num, by decide, by decide,
    glyphDistBinary32_circular 10 (by norm_num) 0 (by decide) 1 (by decide)⟩

/-- C14 (evaluation at the failing input): in `float` arithmetic, with font `1`, the text
`"A"` and `highlightPos = 2 ^ 100`, no colour mapping is produced and
`drawWithHighlight` has not reached `fillTextColorCoords`, whatever number of tests the
normalisation loops are given. -/
theorem colour_mapping_not_reached_at_two_pow_100 (fuel : Nat) :
    readyState.font = some 1 ∧ readyState.text.utf8ByteSize = 1 ∧
    highlightColorsBinary32 cosApprox fuel 1 ((2 : ℚ) ^ 100) 1 black white = none ∧
    drawWithHighlightBinary32 cosApprox fuel probeProvider atlasA readyState rectA black white
      ((2 : ℚ) ^ 100) 1 = none := by
  have hcol : highlightColorsBinary32 cosApprox fuel 1 ((2 : ℚ) ^ 100) 1 black white = none := by
    rw [highlightColorsBinary32, wrapHighlightPosBinary32_two_pow_100]
    rfl
  refine ⟨by decide, by decide, hcol, ?_⟩
  have hfont : readyState.font = some 1 := by decide
  have hlen : (highlightLayout probeProvider 1
      (highlightAtlasCheck atlasA 1 readyState).1 rectA).1.text.utf8ByteSize = 1 := by decide
  have hne : ¬ readyState.text.utf8ByteSize = 0 := by decide
  simp only [drawWithHighlightBinary32, hfont, hne, if_false, hlen, one_ne_zero, hcol,
    Option.map_none']

/-- Whenever the `float` normalisation exits, the colour mapping has one entry per glyph, with
the glyph indices `0, 1, ..., textLen - 1` in this order. -/
theorem highlightColorsBinary32_complete (cosf : ℚ → ℚ) (fuel textLen : Nat) (pos w : ℚ)
    (baseColor highlightColor : Color) (colors : List (Nat × Color))
    (h : highlightColorsBinary32 cosf fuel textLen pos w baseColor highlightColor
      = some colors) :
    colors.length = textLen ∧ colors.map Prod.fst = List.range textLen := by
  simp only [highlightColorsBinary32, Option.map_eq_some'] at h
  obtain ⟨p, -, rfl⟩ := h
  constructor
  · simp
  · rw [List.map_map]
    have : (Prod.fst ∘ glyphColorBinary32 cosf textLen p w baseColor highlightColor) = id := by
      funext i
      rfl
    rw [this, List.map_id]

/-! ## Theorems: the interpolation factor over the reals -/

theorem factor_angle_range (d w : ℝ) (hw : 0 < w) (h0 : 0 ≤ d) (h1 : d < w) :
    0 ≤ d / w * (314159 / 100000) ∧ d / w * (314159 / 100000) < Real.pi := by
  have hq0 : 0 ≤ d / w := div_nonneg h0 hw.le
  have hq1 : d / w < 1 := (div_lt_one hw).mpr h1
  have hpi : (3.141592 : ℝ) < Real.pi := Real.pi_gt_d6
  constructor
  · positivity
  · have : d / w * (314159 / 100000) < 314159 / 100000 := by
      have : (0 : ℝ) < 314159 / 100000 := by norm_num
      nlinarith
    have h3 : (314159 / 100000 : ℝ) < 3.141592 := by norm_num
    linarith

theorem highlightFactor_real_of_lt (d w : ℝ) (h1 : d < w) :
    (highlightFactor Real.cos d w).1 = (Real.cos (d / w * (314159 / 100000)) + 1) / 2 := by
  rw [highlightFactor, if_pos h1]

/-- C16: over the reals, with `cos` the real cosine: for `highlightWidth > 0` the factor
`(cos(d / highlightWidth * 3.14159) + 1) / 2` computed for `0 ≤ d < highlightWidth` lies in
`[0, 1]`, is `1` at `d = 0`, and is strictly decreasing in `d` on `[0, highlightWidth)`; for
`d ≥ highlightWidth` (any width) the factor is `0`; hence the factor of every glyph of every
call lies in `[0, 1]`. -/
theorem highlight_factor_window :
    (∀ w d : ℝ, 0 < w → 0 ≤ d → d < w →
      0 ≤ (highlightFactor Real.cos d w).1 ∧ (highlightFactor Real.cos d w).1 ≤ 1) ∧
    (∀ w : ℝ, 0 < w → (highlightFactor Real.cos 0 w).1 = 1) ∧
    (∀ w d₁ d₂ : ℝ, 0 < w → 0 ≤ d₁ → d₁ < d₂ → d₂ < w →
      (highlightFactor Real.cos d₂ w).1 < (highlightFactor Real.cos d₁ w).1) ∧
    (∀ w d : ℝ, w ≤ d → (highlightFactor Real.cos d w).1 = 0) ∧
    (∀ (textLen : Nat) (hlen : 0 < textLen) (highlightPos w : ℝ) (i : Nat), i < textLen →
      0 ≤ (highlightFactor Real.cos
        (glyphDist textLen (wrapHighlightPos textLen hlen highlightPos) i) w).1 ∧
      (highlightFactor Real.cos
        (glyphDist textLen (wrapHighlightPos textLen hlen highlightPos) i) w).1 ≤ 1) := by
  have hrange : ∀ w d : ℝ, 0 < w → 0 ≤ d → d < w →
      0 ≤ (highlightFactor Real.cos d w).1 ∧ (highlightFactor Real.cos d w).1 ≤ 1 := by
    intro w d _ _ h1
    rw [highlightFactor_real_of_lt d w h1]
    have hc1 := Real.neg_one_le_cos (d / w * (314159 / 100000))
    have hc2 := Real.cos_le_one (d / w * (314159 / 100000))
    constructor <;> linarith
  refine ⟨hrange, ?_, ?_, ?_, ?_⟩
  · intro w hw
    exact highlightFactor_zero Real.cos Real.cos_zero w hw
  · intro w d₁ d₂ hw h0 h12 h2
    rw [highlightFactor_real_of_lt d₁ w (lt_trans h12 h2), highlightFactor_real_of_lt d₂ w h2]
    have ha := factor_angle_range d₁ w hw h0 (lt_trans h12 h2)
    have hb := factor_angle_range d₂ w hw (le_trans h0 h12.le) h2
    have hlt : d₁ / w * (314159 / 100000) < d₂ / w * (314159 / 100000) := by
      have : d₁ / w < d₂ / w := div_lt_div_of_pos_right h12 hw
      have h3 : (0 : ℝ) < 314159 / 100000 := by norm_num
      nlinarith
    have := Real.cos_lt_cos_of_nonneg_of_le_pi ha.1 hb.2.le hlt
    linarith
  · intro w d h
    rw [highlightFactor_of_le Real.cos d w h]
  · intro textLen hlen highlightPos w i hi
    obtain ⟨hp0, hp1⟩ := wrapHighlightPos_range textLen hlen highlightPos
    have hd := glyphDist_nonneg textLen _ i hp0 hp1 hi
    by_cases h : glyphDist textLen (wrapHighlightPos textLen hlen highlightPos) i < w
    · exact hrange w _ (lt_of_le_of_lt hd h) hd h
    · rw [highlightFactor_of_le Real.cos _ w (not_lt.mp h)]
      exact ⟨le_refl 0, zero_le_one⟩

/-- Witness of `highlight_factor_window`: width `3`, distances `1` and `2`, and distance `3`;
ten glyphs with position `5`, glyph `4`. -/
theorem highlight_factor_window_witness :
    (0 : ℝ) < 3 ∧ (0 : ℝ) ≤ 1 ∧ (1 : ℝ) < 2 ∧ (2 : ℝ) < 3 ∧ (3 : ℝ) ≤ 3 ∧ 0 < 10 ∧ 4 < 10 ∧
    (0 ≤ (highlightFactor Real.cos 1 3).1 ∧ (highlightFactor Real.cos 1 3).1 ≤ 1) ∧
    (highlightFactor Real.cos 0 3).1 = 1 ∧
    (highlightFactor Real.cos 2 3).1 < (highlightFactor Real.cos 1 3).1 ∧
    (highlightFactor Real.cos 3 3).1 = 0 ∧
    (0 ≤ (highlightFactor Real.cos
        (glyphDist 10 (wrapHighlightPos 10 (by decide) (5 : ℝ)) 4) 3).1 ∧
      (highlightFactor Real.cos
        (glyphDist 10 (wrapHighlightPos 10 (by decide) (5 : ℝ)) 4) 3).1 ≤ 1) :=
  ⟨by norm_num, by norm_num, by norm_num, by norm_num, le_refl 3, by decide, by decide,
    highlight_factor_window.1 3 1 (by norm_num) (by norm_num) (by norm_num),
    highlight_factor_window.2.1 3 (by norm_num),
    highlight_factor_window.2.2.1 3 1 2 (by norm_num) (by norm_num) (by norm_num) (by norm_num),
    highlight_factor_window.2.2.2.1 3 3 (le_refl 3),
    highlight_factor_window.2.2.2.2 10 (by decide) 5 3 4 (by decide)⟩

end CachedText
